import Mathlib

/-!
Shallow embedding of the acquisition pipeline of the
ObservatoireDuFeminismeMediatique repository
(src/scripts/collect_urls.py, src/scripts/remove_duplicates.py,
src/scripts/fetch_articles.py), together with proofs settling the
frozen claims about its specification.

Conventions of the embedding:
* Python strings become Lean `String`; single-character `str.split(c)[0]`
  becomes `List.takeWhile` on `String.data`; `str.replace` becomes an
  explicit recursive scan; slicing `s[:n]` becomes `List.take n` on the
  character list (both count Unicode code points).
* `urllib.parse.urlparse` is embedded for the fragment handled by this
  code base: optional `scheme:`, optional `//netloc`, path cut at the
  first `?` or `#`.  The `ValueError` it raises on a netloc containing
  an unmatched square bracket is modelled by returning `none`.
* ASCII case mapping (`Char.toLower`) models Python `str.lower` on the
  ASCII URLs this pipeline handles.
-/

namespace Odfm

/-- `containsSeq needle hay` decides whether `needle` occurs as a
contiguous subsequence of `hay`; embeds the Python `in` test on strings. -/
def containsSeq (needle : List Char) : List Char → Bool
  | [] => needle.isEmpty
  | c :: rest => needle.isPrefixOf (c :: rest) || containsSeq needle rest

/-- Python `pat in hay` on strings. -/
def strContains (hay pat : String) : Bool :=
  containsSeq pat.data hay.data

/-- Keep the part of the character list before the first occurrence of
`sep`; embeds Python `s.split(sep)[0]` for a one-character separator. -/
def takeUntil (sep : Char) (cs : List Char) : List Char :=
  cs.takeWhile (fun c => c ≠ sep)

/-- Remove one trailing `/` if present; embeds
`if s.endswith('/'): s = s[:-1]`. -/
def dropTrailingSlash (cs : List Char) : List Char :=
  if cs.getLast? = some '/' then cs.dropLast else cs

/-- Embeds Python `str.strip()` (whitespace removed at both ends). -/
def pyStrip (cs : List Char) : List Char :=
  ((cs.dropWhile Char.isWhitespace).reverse.dropWhile Char.isWhitespace).reverse

/-- `normalize_url` of src/scripts/remove_duplicates.py:
drop fragment, drop query, drop one trailing slash, lower-case the whole
string and strip surrounding whitespace; empty input maps to the empty
string. -/
def normalize_url (url : String) : String :=
  if url = "" then ""
  else
    let cs := takeUntil '?' (takeUntil '#' url.data)
    let cs := dropTrailingSlash cs
    String.mk (pyStrip (cs.map Char.toLower))

/-- Result of the embedded `urllib.parse.urlparse`: the three components
this code base reads. -/
structure UrlParts where
  scheme : String
  netloc : String
  path : String
deriving Repr, DecidableEq

/-- Characters allowed in a URL scheme after the leading letter. -/
def isSchemeChar (c : Char) : Bool :=
  c.isAlpha || c.isDigit || c = '+' || c = '-' || c = '.'

/-- Split a leading `scheme:` as `urlparse` does: only when a colon is
present, the part before it is non-empty, starts with a letter and
consists of scheme characters; the scheme is lower-cased. -/
def splitScheme (cs : List Char) : List Char × List Char :=
  let pre := cs.takeWhile (fun c => c ≠ ':')
  if pre.length < cs.length
      && (match pre with | [] => false | c :: _ => c.isAlpha)
      && pre.all isSchemeChar then
    (pre.map Char.toLower, cs.drop (pre.length + 1))
  else
    ([], cs)

/-- Split a leading `//netloc` as `urlparse` does: the netloc extends to
the first `/`, `?` or `#`. -/
def splitNetloc (cs : List Char) : List Char × List Char :=
  match cs with
  | '/' :: '/' :: rest =>
    (rest.takeWhile (fun c => c ≠ '/' && c ≠ '?' && c ≠ '#'),
     rest.dropWhile (fun c => c ≠ '/' && c ≠ '?' && c ≠ '#'))
  | _ => ([], cs)

/-- Schemes for which `urlparse` splits `;params` off the last path
segment (`urllib.parse.uses_params`). -/
def usesParams : List String :=
  ["", "ftp", "hdl", "prospero", "http", "imap", "https", "shttp", "rtsp",
   "rtspu", "sip", "sips", "mms", "sftp", "tel"]

/-- `_splitparams` of urllib.parse: cut the last path segment at its
first `;` (a `;` in an earlier segment is kept). -/
def splitParams (path : List Char) : List Char :=
  let rev := path.reverse
  let seg := rev.takeWhile (fun c => c ≠ '/')
  let pre := rev.dropWhile (fun c => c ≠ '/')
  pre.reverse ++ takeUntil ';' seg.reverse

/-- Embedded `urllib.parse.urlparse`, restricted to the components read
by this code base.  Returns `none` exactly when the Python function
raises `ValueError` (a netloc containing `[` without `]` or `]` without
`[`).  For the schemes of `uses_params`, `;params` is split off the last
path segment, as `urlparse` (unlike `urlsplit`) does. -/
def pyUrlparse (url : String) : Option UrlParts :=
  let (scheme, rest) := splitScheme url.data
  let (netloc, rest2) := splitNetloc rest
  if netloc.contains '[' ≠ netloc.contains ']' then none
  else
    let path0 := takeUntil '?' (takeUntil '#' rest2)
    let path :=
      if usesParams.contains (String.mk scheme) && path0.contains ';' then
        splitParams path0
      else path0
    some ⟨String.mk scheme, String.mk netloc, String.mk path⟩

/-- `_normalize_url` of src/scripts/collect_urls.py: rebuild
`scheme://netloc path`, drop one trailing slash; on a parse failure the
original string is returned unchanged. -/
def normalizeUrlCollect (url : String) : String :=
  match pyUrlparse url with
  | none => url
  | some p =>
    let normalized := p.scheme ++ "://" ++ p.netloc ++ p.path
    if normalized.data.getLast? = some '/' then String.mk normalized.data.dropLast
    else normalized

example : normalize_url "https://example.fr/a?ref=1#x" = "https://example.fr/a" := by decide
example : normalize_url "https://example.fr/a/" = "https://example.fr/a" := by decide
example : normalize_url "https://example.fr/Path" = "https://example.fr/path" := by decide
example : normalizeUrlCollect "https://example.fr/a?ref=1#x" = "https://example.fr/a" := by decide
example : normalizeUrlCollect "https://example.fr/a/" = "https://example.fr/a" := by decide
example : normalizeUrlCollect "HTTPS://Example.FR/Path?q=1#f" = "https://Example.FR/Path" := by decide
example : pyUrlparse "http://[::1/x" = none := by decide
example : normalizeUrlCollect "http://h.fr/a;type=b" = "http://h.fr/a" := by decide
example : normalizeUrlCollect "http://h.fr/a;x/b" = "http://h.fr/a;x/b" := by decide

/-- Remove every occurrence of `www.`; embeds
`netloc.replace("www.", "")` (left to right, not rescanning the
replaced region). -/
def stripWww : List Char → List Char
  | 'w' :: 'w' :: 'w' :: '.' :: rest => stripWww rest
  | c :: rest => c :: stripWww rest
  | [] => []

/-- `_extract_domain` of src/scripts/fetch_articles.py (identical in
collect_urls.py): netloc with `www.` removed; the empty string when the
URL cannot be parsed. -/
def extractDomain (url : String) : String :=
  match pyUrlparse url with
  | none => ""
  | some p => String.mk (stripWww p.netloc.data)

/-- `_is_allowed_domain` of src/scripts/fetch_articles.py: with an empty
configured set every domain is accepted. -/
def isAllowedDomain (mediaDomains : List String) (url : String) : Bool :=
  if mediaDomains.isEmpty then true
  else mediaDomains.contains (extractDomain url)

/-- `_is_media_url` of src/scripts/collect_urls.py: membership in the
configured media domains (no empty-set exception here). -/
def isMediaUrl (mediaDomains : List String) (url : String) : Bool :=
  mediaDomains.contains (extractDomain url)

/-- Sites routed through the headless browser
(`ArticleFetcher.use_playwright_for`). -/
def usePlaywrightFor : List String := ["france24.com", "lemonde.fr", "lesechos.fr"]

/-- `ArticleFetcher.domain_delays`, in tenths of a second (1.0 s for
lemonde.fr and france24.com, 0.5 s default). -/
def domainDelay (d : String) : Nat :=
  if d == "lemonde.fr" then 10
  else if d == "france24.com" then 10
  else 5

/-- One row of data/fetch_log.csv.  The wall-clock `fetch_date` column
is not modelled; `filePath` records the content-store path of the URL. -/
structure LogEntry where
  url : String
  status : String
  error : String
  filePath : String
deriving Repr, DecidableEq

/-- `_get_file_path`: the content-store path is the MD5 hash of the URL
(sharded by its first two hex characters).  The hash is modelled by the
URL itself: the code uses it only as a deterministic, collision-free
key. -/
def getFilePath (url : String) : String := url

/-- State touched by the fetcher: the content store (path to stored
bytes) and the append-only fetch log. -/
structure FetchState where
  store : List (String × String)
  log : List LogEntry
deriving Repr, DecidableEq

/-- Content stored for a URL, if its file exists. -/
def storeLookup (st : FetchState) (url : String) : Option String :=
  (st.store.find? (fun kv => kv.1 == getFilePath url)).map (fun kv => kv.2)

/-- `_is_already_fetched`: the content-store file for the URL exists. -/
def isAlreadyFetched (st : FetchState) (url : String) : Bool :=
  (storeLookup st url).isSome

/-- Writing the HTML file for a URL (open for write truncates). -/
def writeStore (st : FetchState) (url content : String) : FetchState :=
  { st with store :=
      (getFilePath url, content) :: st.store.filter (fun kv => !(kv.1 == getFilePath url)) }

/-- Python `error[:200]` on code points. -/
def truncate200 (s : String) : String := String.mk (s.data.take 200)

/-- `_save_fetch_log`: append one row; the error detail is truncated to
200 characters, or stored as the empty string when absent. -/
def saveFetchLog (st : FetchState) (url status error : String) : FetchState :=
  { st with log := st.log ++
      [{ url := url, status := status,
         error := if error == "" then "" else truncate200 error,
         filePath := getFilePath url }] }

/-- Outcome of one HTTP GET: a response, a timeout, or a client error
(exception raised by the HTTP library). -/
inductive HttpResult where
  | response (status : Nat) (contentType : String) (body : String)
  | timeout
  | clientError (msg : String)
deriving Repr, DecidableEq

/-- Environment of the asynchronous fetcher: whether Playwright is
importable, what the headless browser would render for each URL
(`none` models a Playwright failure), and the network oracle for the
aiohttp GET. -/
structure AsyncEnv where
  playwrightAvailable : Bool
  playwrightContent : String → Option String
  net : String → HttpResult

/-- Python `str.lower()` on the character list (ASCII case mapping). -/
def pyLower (s : String) : String := String.mk (s.data.map Char.toLower)

/-- Error message written on a 403/406 when no headless fallback
succeeds (fetch_articles.py line 357). -/
def httpBlockMsg (s : Nat) : String :=
  "HTTP " ++ toString s ++ ": Site bloque les requ\xeates automatis\xe9es"

/-- Error message written when a block-signal phrase is found in the
body (fetch_articles.py lines 384 and 504). -/
def accessDeniedMsg : String := "Access Denied - Site bloque l\x27acc\xe8s"

/-- Textual form of the exception `raise_for_status` throws for a
non-2xx status; aiohttp exception text abbreviated to the status code. -/
def httpErrMsg (s : Nat) : String := "HTTP " ++ toString s

/-- The block-signal phrase scan over the lower-cased body
(fetch_articles.py lines 372-373). -/
def hasBlockSignal (body : String) : Bool :=
  let txt := pyLower body
  strContains txt "access denied" || strContains txt "acc\xe8s refus\xe9"
    || strContains txt "access forbidden"

/-- Body of `fetch_url_async` from the aiohttp GET onwards
(fetch_articles.py lines 346-404).  Returns the boolean result, the new
state, and the list of network accesses made (one element per HTTP or
headless request, tagged with the URL). -/
def classifyDirect (env : AsyncEnv) (st : FetchState) (url : String) :
    Bool × FetchState × List String :=
  match env.net url with
  | .timeout => (false, saveFetchLog st url "error" "Timeout", [url])
  | .clientError m => (false, saveFetchLog st url "error" m, [url])
  | .response s ct body =>
    if s == 403 || s == 406 then
      if env.playwrightAvailable then
        match env.playwrightContent url with
        | some h =>
          if h == "" then
            (false, saveFetchLog st url "error" (httpBlockMsg s), [url, url])
          else
            (true, saveFetchLog (writeStore st url h) url "success" "", [url, url])
        | none => (false, saveFetchLog st url "error" (httpBlockMsg s), [url, url])
      else
        (false, saveFetchLog st url "error" (httpBlockMsg s), [url])
    else if 400 ≤ s then
      (false, saveFetchLog st url "error" (httpErrMsg s), [url])
    else if !(strContains (pyLower ct) "text/html") then
      (false, saveFetchLog st url "skipped" ("Non-HTML: " ++ pyLower ct), [url])
    else if hasBlockSignal body then
      if env.playwrightAvailable then
        match env.playwrightContent url with
        | some h =>
          if h == "" || strContains (pyLower h) "access denied" then
            (false, saveFetchLog st url "error" accessDeniedMsg, [url, url])
          else
            (true, saveFetchLog (writeStore st url h) url "success" "", [url, url])
        | none => (false, saveFetchLog st url "error" accessDeniedMsg, [url, url])
      else
        (false, saveFetchLog st url "error" accessDeniedMsg, [url])
    else
      (true, saveFetchLog (writeStore st url body) url "success" "", [url])

/-- `fetch_url_async` of src/scripts/fetch_articles.py.  The per-domain
rate-limiter wait has no effect on store or log and is modelled
separately (see the rate-limiter machine below). -/
def fetchUrlAsync (env : AsyncEnv) (st : FetchState) (url : String) :
    Bool × FetchState × List String :=
  if isAlreadyFetched st url then (true, st, [])
  else
    let domain := extractDomain url
    if env.playwrightAvailable && usePlaywrightFor.contains domain then
      match env.playwrightContent url with
      | some h =>
        if h == "" then
          let r := classifyDirect env st url
          (r.1, r.2.1, url :: r.2.2)
        else
          (true, saveFetchLog (writeStore st url h) url "success" "", [url])
      | none =>
        let r := classifyDirect env st url
        (r.1, r.2.1, url :: r.2.2)
    else classifyDirect env st url

/-- Environment of the synchronous fallback fetcher: the 403/406 branch
issues a cookie warm-up GET and a second GET with richer headers, so two
network oracles are needed. -/
structure SyncEnv where
  playwrightAvailable : Bool
  playwrightContent : String → Option String
  netFirst : String → HttpResult
  netRetry : String → HttpResult

/-- Message of the `requests.exceptions.HTTPError` handler
(fetch_articles.py lines 521-533); exception text for other statuses
abbreviated to the status code. -/
def syncHttpErrMsg (s : Nat) : String :=
  if s == 403 then
    "403 Forbidden - Site bloque les requ\xeates automatis\xe9es (protection anti-bot)"
  else if s == 406 then
    "406 Not Acceptable - Site bloque les requ\xeates automatis\xe9es"
  else "HTTP " ++ toString s

/-- Base URL of the origin (`f"{scheme}://{netloc}/"`), used by the
warm-up GET of the synchronous 403/406 branch; trace bookkeeping only. -/
def baseUrl (url : String) : String :=
  match pyUrlparse url with
  | none => ""
  | some p => p.scheme ++ "://" ++ p.netloc ++ "/"

/-- Tail of `fetch_url` from `raise_for_status` onwards
(fetch_articles.py lines 482-513) applied to whichever response is
current at that point. -/
def finishResponse (env : SyncEnv) (st : FetchState) (url : String)
    (s : Nat) (ct body : String) (calls : List String) :
    Bool × FetchState × List String :=
  if 400 ≤ s then
    (false, saveFetchLog st url "error" (syncHttpErrMsg s), calls)
  else if !(strContains (pyLower ct) "text/html") then
    (false, saveFetchLog st url "skipped" ("Non-HTML: " ++ pyLower ct), calls)
  else if hasBlockSignal body then
    if env.playwrightAvailable then
      match env.playwrightContent url with
      | some h =>
        if h == "" || strContains (pyLower h) "access denied" then
          (false, saveFetchLog st url "error" accessDeniedMsg, calls ++ [url])
        else
          (true, saveFetchLog (writeStore st url h) url "success" "", calls ++ [url])
      | none => (false, saveFetchLog st url "error" accessDeniedMsg, calls ++ [url])
    else
      (false, saveFetchLog st url "error" accessDeniedMsg, calls)
  else
    (true, saveFetchLog (writeStore st url body) url "success" "", calls)

/-- Body of `fetch_url` from the first `session.get` onwards
(fetch_articles.py lines 448-546). -/
def syncDirect (env : SyncEnv) (st : FetchState) (url : String) :
    Bool × FetchState × List String :=
  match env.netFirst url with
  | .timeout => (false, saveFetchLog st url "error" "Timeout", [url])
  | .clientError m => (false, saveFetchLog st url "error" m, [url])
  | .response s ct body =>
    if s == 403 || s == 406 then
      if env.playwrightAvailable then
        match env.playwrightContent url with
        | some h =>
          if h == "" then finishResponse env st url s ct body [url, url]
          else (true, saveFetchLog (writeStore st url h) url "success" "", [url, url])
        | none => finishResponse env st url s ct body [url, url]
      else
        match env.netRetry url with
        | .timeout =>
          (false, saveFetchLog st url "error" "Timeout", [url, baseUrl url, url])
        | .clientError m =>
          (false, saveFetchLog st url "error" m, [url, baseUrl url, url])
        | .response s2 ct2 body2 =>
          finishResponse env st url s2 ct2 body2 [url, baseUrl url, url]
    else finishResponse env st url s ct body [url]

/-- `fetch_url` of src/scripts/fetch_articles.py (synchronous
fallback). -/
def fetchUrl (env : SyncEnv) (st : FetchState) (url : String) :
    Bool × FetchState × List String :=
  if isAlreadyFetched st url then (true, st, [])
  else
    let domain := extractDomain url
    if env.playwrightAvailable && usePlaywrightFor.contains domain then
      match env.playwrightContent url with
      | some h =>
        if h == "" then
          let r := syncDirect env st url
          (r.1, r.2.1, url :: r.2.2)
        else
          (true, saveFetchLog (writeStore st url h) url "success" "", [url])
      | none =>
        let r := syncDirect env st url
        (r.1, r.2.1, url :: r.2.2)
    else syncDirect env st url

/-- `_load_fetch_log`: fold the rows of the log file in order into a
map; a later row for the same URL overwrites an earlier one. -/
def loadFetchLog (rows : List LogEntry) : String → Option LogEntry :=
  rows.foldl (fun m r => fun v => if v == r.url then some r else m v) (fun _ => none)

/-- Membership in `already_processed` of `fetch_all_async`: the loaded
log maps the URL to a row whose status is `success`. -/
def isAlreadyProcessed (rows : List LogEntry) (u : String) : Bool :=
  match loadFetchLog rows u with
  | some e => e.status == "success"
  | none => false

/-- The row filter of `fetch_all_async` (fetch_articles.py lines
565-577): keep URLs not already processed whose domain is allowed (all
domains when none are configured). -/
def urlsToFetch (mediaDomains : List String) (logRows : List LogEntry)
    (urls : List String) : List String :=
  urls.filter (fun url =>
    !(isAlreadyProcessed logRows url)
      && (mediaDomains.isEmpty || isAllowedDomain mediaDomains url))

/-- State after sequentially fetching one URL. -/
def fetchStep (env : AsyncEnv) (st : FetchState) (url : String) : FetchState :=
  (fetchUrlAsync env st url).2.1

/-- Sequential model of the dispatch loop of `fetch_all_async`
(interleavings of the task pool do not reorder the per-URL store write
and log append modelled here). -/
def runFetches (env : AsyncEnv) (st : FetchState) (urls : List String) : FetchState :=
  urls.foldl (fetchStep env) st

/-- Network accesses made while sequentially fetching a URL list. -/
def runFetchesCalls (env : AsyncEnv) (st : FetchState) (urls : List String) :
    List String :=
  (urls.foldl
    (fun acc u =>
      let r := fetchUrlAsync env acc.1 u
      (r.2.1, acc.2 ++ r.2.2))
    (st, ([] : List String))).2

/-- `fetch_all_async` as filter plus dispatch: the final state and the
network accesses of one orchestrator run. -/
def fetchAllAsync (env : AsyncEnv) (mediaDomains : List String)
    (st : FetchState) (rows : List String) : FetchState × List String :=
  let pending := urlsToFetch mediaDomains st.log rows
  (runFetches env st pending, runFetchesCalls env st pending)

/-- One search-result URL handled by `_process_search_query` of
src/scripts/collect_urls.py: skip the URL when its raw or normalized
form is already known; otherwise record it, and remember both forms when
it belongs to a configured media domain.  State: (known set, rows
written to urls_raw.csv). -/
def processResult (mediaDomains : List String)
    (acc : List String × List String) (url : String) :
    List String × List String :=
  if url == "" then acc
  else if acc.1.contains url || acc.1.contains (normalizeUrlCollect url) then acc
  else
    let known :=
      if isMediaUrl mediaDomains url then
        url :: normalizeUrlCollect url :: acc.1
      else acc.1
    (known, acc.2 ++ [url])

/-- `_deduplicate_urls` of src/scripts/collect_urls.py: keep the first
row for each raw URL when writing urls_clean.csv. -/
def dedupRaw (urls : List String) : List String :=
  (urls.foldl
    (fun (acc : List String × List String) url =>
      if acc.1.contains url then acc else (url :: acc.1, acc.2 ++ [url]))
    ([], [])).2

/-- Statuses of the FetchOutcome enum of the specification (section 3).
`AlreadyFetched` never reaches the ledger, see the C9 theorem. -/
inductive SpecStatus where
  | Success
  | Blocked
  | NonHTML
  | Timeout
  | NetworkError
deriving Repr, DecidableEq

/-- Spec-side abstraction (specification sections 3 and 7) mapping a
concrete ledger row to the FetchOutcome status it denotes: `success`
rows are Success, `skipped` rows are the non-HTML content mismatch, and
`error` rows split into Timeout, Blocked (the anti-bot messages written
by the 403/406 and access-denied branches) and other network errors. -/
def specStatusOfEntry (e : LogEntry) : SpecStatus :=
  if e.status == "success" then .Success
  else if e.status == "skipped" then .NonHTML
  else if e.error == "Timeout" then .Timeout
  else if strContains e.error "Site bloque" then .Blocked
  else .NetworkError

/-!
Cooperative model of `_wait_for_domain_rate_limit` (fetch_articles.py
lines 296-305).  Time is in tenths of a second.  A task for a domain
performs, atomically up to the single `await asyncio.sleep` suspension
point: read `domain_last_request`, compare the elapsed time with the
configured delay, sleep if needed, then write the current time and
proceed to its network request (the grant).  The scheduler interleaves
`run` steps of the tasks with `tick` steps advancing the clock; a
sleeping task can only be resumed once the clock has reached its wake
time.
-/

/-- Phase of one worker inside `_wait_for_domain_rate_limit`. -/
inductive RLPhase where
  | ready
  | sleeping (wake : Nat)
  | done
deriving Repr, DecidableEq

/-- Shared state: per-task phases, `domain_last_request` (defaulting to
0 as the `defaultdict(float)` does), the clock, and the granted slots in
order with their times. -/
structure RLState where
  tasks : List (String × RLPhase)
  lastRequest : List (String × Nat)
  clock : Nat
  grants : List (String × Nat)
deriving Repr, DecidableEq

/-- Read `domain_last_request[d]`. -/
def lastReq (st : RLState) (d : String) : Nat :=
  (((st.lastRequest.find? (fun kv => kv.1 == d)).map (fun kv => kv.2)).getD 0)

/-- Write `domain_last_request[d] = t`. -/
def setLastReq (m : List (String × Nat)) (d : String) (t : Nat) :
    List (String × Nat) :=
  (d, t) :: m.filter (fun kv => !(kv.1 == d))

/-- Scheduler actions: advance the clock, or run the enabled step of
task `i`. -/
inductive RLAction where
  | tick (n : Nat)
  | run (i : Nat)
deriving Repr, DecidableEq

/-- One scheduler step.  A ready task reads the last-request time and
either completes immediately (elapsed time at least the delay: no
suspension point, so the read, write and grant are one atomic step) or
goes to sleep until `last + delay`; a sleeping task, once the clock
reached its wake time, writes the current time and is granted — without
re-reading `domain_last_request`, exactly as the code resumes after
`asyncio.sleep`. -/
def rlStep (st : RLState) (a : RLAction) : RLState :=
  match a with
  | .tick n => { st with clock := st.clock + n }
  | .run i =>
    match st.tasks.get? i with
    | none => st
    | some (_, .done) => st
    | some (d, .ready) =>
      let delay := domainDelay d
      let last := lastReq st d
      let elapsed := st.clock - last
      if elapsed < delay then
        { st with tasks := st.tasks.set i (d, .sleeping (st.clock + (delay - elapsed))) }
      else
        { st with tasks := st.tasks.set i (d, .done),
                  lastRequest := setLastReq st.lastRequest d st.clock,
                  grants := st.grants ++ [(d, st.clock)] }
    | some (d, .sleeping w) =>
      if st.clock < w then st
      else
        { st with tasks := st.tasks.set i (d, .done),
                  lastRequest := setLastReq st.lastRequest d st.clock,
                  grants := st.grants ++ [(d, st.clock)] }

/-- Run a schedule. -/
def rlRun (st : RLState) (sched : List RLAction) : RLState :=
  sched.foldl rlStep st

/-- Times of the granted slots for domain `d`, in grant order. -/
def grantTimes (st : RLState) (d : String) : List Nat :=
  (st.grants.filter (fun g => g.1 == d)).map (fun g => g.2)

/-- Consecutive grant times separated by at least `delay`. -/
def gapsOK (delay : Nat) : List Nat → Bool
  | a :: b :: rest => decide (delay ≤ b - a) && gapsOK delay (b :: rest)
  | _ => true

/-- Grant time of one uninterleaved `_wait_for_domain_rate_limit` call:
with `last` the stored last-request time and `now` the clock at entry,
the call returns (and stamps `domain_last_request`) at `last + delay`
after sleeping, or immediately at `now`. -/
def awaitSlotGrant (delay last now : Nat) : Nat :=
  if now - last < delay then last + delay else now

/-- Grant times of a sequence of serialized `_wait_for_domain_rate_limit`
calls for one domain: each call starts at the given clock value and the
stored last-request time is threaded through. -/
def seqGrants (delay last : Nat) : List Nat → List Nat
  | [] => []
  | now :: rest =>
    let g := awaitSlotGrant delay last now
    g :: seqGrants delay g rest

/-- Environment where every direct fetch returns HTTP 200 with content
type text/html and an empty body, and no headless browser is available. -/
def envEmptyBody : AsyncEnv :=
  { playwrightAvailable := false, playwrightContent := fun _ => none,
    net := fun _ => .response 200 "text/html" "" }

/-- Environment whose every network access times out. -/
def envTimeout : AsyncEnv :=
  { playwrightAvailable := false, playwrightContent := fun _ => none,
    net := fun _ => .timeout }

/-- Synchronous environment whose every network access times out. -/
def envSyncTimeout : SyncEnv :=
  { playwrightAvailable := false, playwrightContent := fun _ => none,
    netFirst := fun _ => .timeout, netRetry := fun _ => .timeout }

/-- State holding one successfully fetched URL: its file is in the
content store and its success row is in the ledger. -/
def stSuccess : FetchState :=
  { store := [("https://s.fr/a", "<html>x</html>")],
    log := [{ url := "https://s.fr/a", status := "success", error := "",
              filePath := "https://s.fr/a" }] }

/-! Helper lemmas about the store and the log. -/

theorem storeLookup_save (st : FetchState) (u status e v : String) :
    storeLookup (saveFetchLog st u status e) v = storeLookup st v := rfl

theorem store_save (st : FetchState) (u status e : String) :
    (saveFetchLog st u status e).store = st.store := rfl

theorem storeLookup_write_self (st : FetchState) (u c : String) :
    storeLookup (writeStore st u c) u = some c := by
  simp [storeLookup, writeStore, List.find?]

theorem find?_filter_of_imp {α : Type} (l : List α) (p q : α → Bool)
    (h : ∀ x, p x = true → q x = true) :
    (l.filter q).find? p = l.find? p := by
  induction l with
  | nil => rfl
  | cons a l ih =>
    by_cases hq : q a = true
    · rw [List.filter_cons_of_pos hq]
      by_cases hp : p a = true
      · rw [List.find?_cons_of_pos _ hp, List.find?_cons_of_pos _ hp]
      · rw [List.find?_cons_of_neg _ (by simpa using hp),
            List.find?_cons_of_neg _ (by simpa using hp), ih]
    · rw [List.filter_cons_of_neg (by simpa using hq), ih,
          List.find?_cons_of_neg]
      intro hp
      exact hq (h a hp)

theorem storeLookup_write_ne (st : FetchState) (u c v : String) (h : v ≠ u) :
    storeLookup (writeStore st u c) v = storeLookup st v := by
  unfold storeLookup writeStore getFilePath
  have hb : (u == v) = false := by
    simp only [beq_eq_false_iff_ne, ne_eq]
    exact fun hx => h hx.symm
  simp only [List.find?]
  rw [hb]
  dsimp only
  rw [find?_filter_of_imp]
  intro kv hkv
  have : kv.1 = v := by simpa using hkv
  simp [this]
  exact h

/-- Shape of the state change of one non-short-circuited fetch of `u`:
the store is unchanged or receives the file of `u`, and exactly one log
row for `u` is appended, with one of the three concrete statuses, a
truncated error field, and — when it is a success row — a store file for
`u`. -/
def stepShape (st st2 : FetchState) (u : String) : Prop :=
  (st2.store = st.store ∨ ∃ c, st2.store = (writeStore st u c).store) ∧
  ∃ en : LogEntry, st2.log = st.log ++ [en] ∧ en.url = u ∧
    (en.status = "success" ∨ en.status = "error" ∨ en.status = "skipped") ∧
    en.error.length ≤ 200 ∧
    (en.status = "success" → isAlreadyFetched st2 u = true)

theorem truncate200_length (s : String) : (truncate200 s).length ≤ 200 := by
  have : (truncate200 s).length = (s.data.take 200).length := rfl
  rw [this, List.length_take]
  exact min_le_left _ _

theorem saveFetchLog_error_length (_st : FetchState) (_u _status e : String) :
    (if e == "" then "" else truncate200 e).length ≤ 200 := by
  split
  · decide
  · exact truncate200_length e

theorem stepShape_save (st : FetchState) (u e : String) (status : String)
    (h : status = "error" ∨ status = "skipped") :
    stepShape st (saveFetchLog st u status e) u := by
  refine ⟨Or.inl rfl, _, rfl, rfl, Or.inr h, saveFetchLog_error_length st u status e, ?_⟩
  intro hs
  rcases h with h | h <;> (rw [h] at hs; simp at hs)

theorem stepShape_success (st : FetchState) (u c : String) :
    stepShape st (saveFetchLog (writeStore st u c) u "success" "") u := by
  refine ⟨Or.inr ⟨c, rfl⟩, _, rfl, rfl, Or.inl rfl,
    saveFetchLog_error_length (writeStore st u c) u "success" "", ?_⟩
  intro _
  unfold isAlreadyFetched
  rw [storeLookup_save, storeLookup_write_self]
  rfl

theorem classifyDirect_shape (env : AsyncEnv) (st : FetchState) (u : String) :
    stepShape st (classifyDirect env st u).2.1 u := by
  unfold classifyDirect
  cases hn : env.net u with
  | response s ct body =>
    dsimp only
    repeat' split
    all_goals
      first
        | exact stepShape_save st u _ "error" (Or.inl rfl)
        | exact stepShape_save st u _ "skipped" (Or.inr rfl)
        | exact stepShape_success st u _
  | timeout => exact stepShape_save st u _ "error" (Or.inl rfl)
  | clientError m => exact stepShape_save st u _ "error" (Or.inl rfl)

theorem fetchUrlAsync_cases (env : AsyncEnv) (st : FetchState) (u : String) :
    (isAlreadyFetched st u = true ∧ fetchUrlAsync env st u = (true, st, [])) ∨
    (isAlreadyFetched st u = false ∧ stepShape st (fetchUrlAsync env st u).2.1 u) := by
  by_cases hf : isAlreadyFetched st u = true
  · exact Or.inl ⟨hf, by simp [fetchUrlAsync, hf]⟩
  · have hf2 : isAlreadyFetched st u = false := by simpa using hf
    refine Or.inr ⟨hf2, ?_⟩
    unfold fetchUrlAsync
    simp only [hf2, Bool.false_eq_true, if_false]
    repeat' split
    all_goals try dsimp only
    all_goals
      first
        | exact classifyDirect_shape env st u
        | exact stepShape_success st u _

theorem finishResponse_shape (env : SyncEnv) (st : FetchState) (u : String)
    (s : Nat) (ct body : String) (calls : List String) :
    stepShape st (finishResponse env st u s ct body calls).2.1 u := by
  unfold finishResponse
  repeat' split
  all_goals
    first
      | exact stepShape_save st u _ "error" (Or.inl rfl)
      | exact stepShape_save st u _ "skipped" (Or.inr rfl)
      | exact stepShape_success st u _

theorem syncDirect_shape (env : SyncEnv) (st : FetchState) (u : String) :
    stepShape st (syncDirect env st u).2.1 u := by
  unfold syncDirect
  repeat' split
  all_goals
    first
      | exact stepShape_save st u _ "error" (Or.inl rfl)
      | exact stepShape_success st u _
      | exact finishResponse_shape env st u _ _ _ _

theorem fetchUrl_cases (env : SyncEnv) (st : FetchState) (u : String) :
    (isAlreadyFetched st u = true ∧ fetchUrl env st u = (true, st, [])) ∨
    (isAlreadyFetched st u = false ∧ stepShape st (fetchUrl env st u).2.1 u) := by
  by_cases hf : isAlreadyFetched st u = true
  · exact Or.inl ⟨hf, by simp [fetchUrl, hf]⟩
  · have hf2 : isAlreadyFetched st u = false := by simpa using hf
    refine Or.inr ⟨hf2, ?_⟩
    unfold fetchUrl
    simp only [hf2, Bool.false_eq_true, if_false]
    repeat' split
    all_goals try dsimp only
    all_goals
      first
        | exact syncDirect_shape env st u
        | exact stepShape_success st u _

theorem fetched_of_shape_store {st st2 : FetchState} {u : String}
    (hs : st2.store = st.store ∨ ∃ c, st2.store = (writeStore st u c).store) :
    ∀ v, isAlreadyFetched st v = true → isAlreadyFetched st2 v = true := by
  intro v hv
  have hcongr : ∀ (a b : FetchState), a.store = b.store →
      storeLookup a v = storeLookup b v := by
    intro a b hab
    unfold storeLookup
    rw [hab]
  rcases hs with hs | ⟨c, hs⟩
  · unfold isAlreadyFetched at *
    rw [hcongr st2 st hs]
    exact hv
  · by_cases hvu : v = u
    · unfold isAlreadyFetched
      rw [hcongr st2 (writeStore st u c) hs, hvu, storeLookup_write_self]
      rfl
    · unfold isAlreadyFetched at *
      rw [hcongr st2 (writeStore st u c) hs, storeLookup_write_ne st u c v hvu]
      exact hv

theorem classifyDirect_calls (env : AsyncEnv) (st : FetchState) (u : String) :
    ∀ c ∈ (classifyDirect env st u).2.2, c = u := by
  unfold classifyDirect
  repeat' split
  all_goals intro c hc
  all_goals simp only [List.mem_cons, List.not_mem_nil, or_false] at hc
  all_goals tauto

theorem fetchUrlAsync_calls (env : AsyncEnv) (st : FetchState) (u : String) :
    ∀ c ∈ (fetchUrlAsync env st u).2.2, c = u := by
  intro c hc
  unfold fetchUrlAsync at hc
  by_cases hf : isAlreadyFetched st u = true
  · rw [if_pos hf] at hc
    simp at hc
  · rw [if_neg hf] at hc
    by_cases hp : (env.playwrightAvailable
        && usePlaywrightFor.contains (extractDomain u)) = true
    · rw [if_pos hp] at hc
      cases hpc : env.playwrightContent u with
      | none =>
        rw [hpc] at hc
        dsimp only at hc
        rcases List.mem_cons.mp hc with h | h
        · exact h
        · exact classifyDirect_calls env st u c h
      | some h0 =>
        rw [hpc] at hc
        dsimp only at hc
        by_cases hz : (h0 == "") = true
        · rw [if_pos hz] at hc
          dsimp only at hc
          rcases List.mem_cons.mp hc with h | h
          · exact h
          · exact classifyDirect_calls env st u c h
        · rw [if_neg hz] at hc
          dsimp only at hc
          simpa using hc
    · rw [if_neg hp] at hc
      exact classifyDirect_calls env st u c hc

theorem runFetchesCalls_aux (env : AsyncEnv) :
    ∀ (urls : List String) (st : FetchState) (acc : List String) (c : String),
      c ∈ (urls.foldl
            (fun a u =>
              let r := fetchUrlAsync env a.1 u
              (r.2.1, a.2 ++ r.2.2)) (st, acc)).2 →
      c ∈ acc ∨ c ∈ urls := by
  intro urls
  induction urls with
  | nil => intro st acc c hc; exact Or.inl hc
  | cons u urls ih =>
    intro st acc c hc
    rw [List.foldl_cons] at hc
    rcases ih _ _ c hc with h | h
    · dsimp only at h
      rcases List.mem_append.mp h with h2 | h2
      · exact Or.inl h2
      · exact Or.inr (List.mem_cons.mpr (Or.inl (fetchUrlAsync_calls env st u c h2)))
    · exact Or.inr (List.mem_cons_of_mem _ h)

theorem runFetchesCalls_mem (env : AsyncEnv) (st : FetchState)
    (urls : List String) (c : String) (h : c ∈ runFetchesCalls env st urls) :
    c ∈ urls := by
  rcases runFetchesCalls_aux env urls st [] c h with h2 | h2
  · simp at h2
  · exact h2

/-- Number of success rows for a URL in the ledger. -/
def successCount (rows : List LogEntry) (u : String) : Nat :=
  (rows.filter (fun e => e.url == u && e.status == "success")).length

theorem successCount_append_entry (l : List LogEntry) (en : LogEntry) (u : String) :
    successCount (l ++ [en]) u =
      successCount l u + (if en.url = u ∧ en.status = "success" then 1 else 0) := by
  unfold successCount
  rw [List.filter_append, List.length_append]
  congr 1
  by_cases h1 : en.url = u <;> by_cases h2 : en.status = "success" <;>
    simp [List.filter_cons, h1, h2]

theorem runFetches_preserve (env : AsyncEnv) (P : FetchState → Prop)
    (hstep : ∀ st u, P st → P (fetchStep env st u)) :
    ∀ (urls : List String) (st : FetchState), P st → P (runFetches env st urls) := by
  intro urls
  induction urls with
  | nil => intro st h; exact h
  | cons u urls ih =>
    intro st h
    unfold runFetches
    rw [List.foldl_cons]
    exact ih _ (hstep _ _ h)

theorem fetchStep_log_len (env : AsyncEnv) (st : FetchState) (u : String) :
    (fetchStep env st u).log.length ≤ st.log.length + 1 := by
  rcases fetchUrlAsync_cases env st u with ⟨_, heq⟩ | ⟨_, _, en, hlog, _⟩
  · unfold fetchStep
    rw [heq]
    exact Nat.le_succ _
  · unfold fetchStep
    rw [hlog]
    simp

theorem runFetches_log_len (env : AsyncEnv) :
    ∀ (urls : List String) (st : FetchState),
      (runFetches env st urls).log.length ≤ st.log.length + urls.length := by
  intro urls
  induction urls with
  | nil => intro st; exact Nat.le.refl
  | cons u urls ih =>
    intro st
    unfold runFetches
    rw [List.foldl_cons]
    calc (urls.foldl (fetchStep env) (fetchStep env st u)).log.length
        ≤ (fetchStep env st u).log.length + urls.length := ih (fetchStep env st u)
      _ ≤ st.log.length + 1 + urls.length :=
          Nat.add_le_add_right (fetchStep_log_len env st u) _
      _ = st.log.length + (u :: urls).length := by simp [List.length_cons]; omega

theorem ledgerInv_step (env : AsyncEnv) (st : FetchState) (u : String)
    (h : ∀ v, successCount st.log v ≤ 1 ∧
      (1 ≤ successCount st.log v → isAlreadyFetched st v = true)) :
    ∀ v, successCount (fetchStep env st u).log v ≤ 1 ∧
      (1 ≤ successCount (fetchStep env st u).log v →
        isAlreadyFetched (fetchStep env st u) v = true) := by
  rcases fetchUrlAsync_cases env st u with ⟨_, heq⟩ | ⟨hf, hstore, en, hlog, hurl, _, _, hsucc⟩
  · unfold fetchStep
    rw [heq]
    exact h
  · intro v
    unfold fetchStep
    rw [hlog, successCount_append_entry]
    by_cases hv : en.url = v ∧ en.status = "success"
    · have hvu : v = u := by rw [← hv.1, hurl]
      have h0 : successCount st.log v = 0 := by
        by_contra hc
        have h1 : 1 ≤ successCount st.log v := Nat.one_le_iff_ne_zero.mpr hc
        have h2 := (h v).2 h1
        rw [hvu, hf] at h2
        exact Bool.false_ne_true h2
      refine ⟨by rw [h0]; simp [hv], ?_⟩
      intro _
      rw [hvu]
      exact hsucc hv.2
    · refine ⟨?_, ?_⟩
      · simpa [hv] using (h v).1
      · intro h1
        rw [if_neg hv, Nat.add_zero] at h1
        exact fetched_of_shape_store hstore v ((h v).2 h1)

theorem storeInv_step (env : AsyncEnv) (st : FetchState) (u : String)
    (h : ∀ e ∈ st.log, e.status = "success" → isAlreadyFetched st e.url = true) :
    ∀ e ∈ (fetchStep env st u).log, e.status = "success" →
      isAlreadyFetched (fetchStep env st u) e.url = true := by
  rcases fetchUrlAsync_cases env st u with ⟨_, heq⟩ | ⟨_, hstore, en, hlog, hurl, _, _, hsucc⟩
  · unfold fetchStep
    rw [heq]
    exact h
  · intro e he hs
    unfold fetchStep at he ⊢
    rw [hlog] at he
    rcases List.mem_append.mp he with he | he
    · exact fetched_of_shape_store hstore e.url (h e he hs)
    · have : e = en := by simpa using he
      subst this
      rw [hurl]
      exact hsucc hs

/-! Helper lemmas for loading the ledger (claim C8). -/

theorem find?_eq_head?_filter {α : Type} (p : α → Bool) :
    ∀ l : List α, l.find? p = (l.filter p).head? := by
  intro l
  induction l with
  | nil => rfl
  | cons a l ih =>
    by_cases h : p a = true
    · rw [List.find?_cons_of_pos _ h, List.filter_cons_of_pos h]
      rfl
    · rw [List.find?_cons_of_neg _ (by simpa using h),
          List.filter_cons_of_neg (by simpa using h), ih]

theorem loadFetchLog_find (u : String) :
    ∀ (rows : List LogEntry) (m : String → Option LogEntry),
      (rows.foldl (fun m r => fun v => if v == r.url then some r else m v) m) u =
        match (rows.reverse.find? (fun r => r.url == u)) with
        | some e => some e
        | none => m u := by
  intro rows
  induction rows with
  | nil => intro m; rfl
  | cons r rows ih =>
    intro m
    rw [List.foldl_cons, ih, List.reverse_cons, List.find?_append]
    cases hfind : rows.reverse.find? (fun r => r.url == u) with
    | some e => rfl
    | none =>
      dsimp only [Option.orElse, List.find?]
      by_cases h : r.url = u
      · simp [h]
      · have h1 : (r.url == u) = false := by simpa using h
        have h2 : (u == r.url) = false := by
          simp only [beq_eq_false_iff_ne, ne_eq]
          exact fun hx => h hx.symm
        rw [h1, h2]
        rfl

/-! Helper lemmas for the collection-stage deduplication (claim C2). -/

theorem processResult_rows_len (md : List String)
    (ex rows : List String) (u : String) :
    (processResult md (ex, rows) u).2.length ≤ rows.length + 1 := by
  unfold processResult
  repeat' split
  all_goals simp

theorem processResult_pair_rows (md existing : List String) (u1 u2 : String)
    (hm : isMediaUrl md u1 = true)
    (hn : normalizeUrlCollect u1 = normalizeUrlCollect u2) :
    (processResult md (processResult md (existing, []) u1) u2).2.length ≤ 1 := by
  by_cases h1 : u1 = ""
  · rw [show processResult md (existing, []) u1 = (existing, []) by
        unfold processResult; rw [if_pos (by simp [h1])]]
    simpa using processResult_rows_len md existing [] u2
  · by_cases h2 : (existing.contains u1
        || existing.contains (normalizeUrlCollect u1)) = true
    · rw [show processResult md (existing, []) u1 = (existing, []) by
          unfold processResult
          rw [if_neg (by simp [h1]), if_pos h2]]
      simpa using processResult_rows_len md existing [] u2
    · have hfirst : processResult md (existing, []) u1 =
          (u1 :: normalizeUrlCollect u1 :: existing, [u1]) := by
        unfold processResult
        rw [if_neg (by simp [h1]), if_neg (by simpa using h2)]
        dsimp only
        rw [if_pos hm]
        rfl
      rw [hfirst]
      by_cases h3 : u2 = ""
      · unfold processResult
        rw [if_pos (by simp [h3])]
        simp
      · have hc : ((u1 :: normalizeUrlCollect u1 :: existing).contains u2
            || (u1 :: normalizeUrlCollect u1 :: existing).contains
                (normalizeUrlCollect u2)) = true := by
          rw [← hn]
          simp
        unfold processResult
        rw [if_neg (by simp [h3]), if_pos hc]
        simp

theorem dedupRaw_len_aux :
    ∀ (l : List String) (seen rows : List String),
      ((l.foldl
        (fun (acc : List String × List String) url =>
          if acc.1.contains url then acc else (url :: acc.1, acc.2 ++ [url]))
        (seen, rows)).2).length ≤ rows.length + l.length := by
  intro l
  induction l with
  | nil => intro seen rows; simp
  | cons u l ih =>
    intro seen rows
    rw [List.foldl_cons]
    by_cases h : seen.contains u = true
    · rw [if_pos h]
      calc _ ≤ rows.length + l.length := ih seen rows
        _ ≤ rows.length + (u :: l).length := by
            simp only [List.length_cons]; omega
    · rw [if_neg h]
      calc _ ≤ (rows ++ [u]).length + l.length := ih _ _
        _ ≤ rows.length + (u :: l).length := by
            simp only [List.length_append, List.length_cons, List.length_nil]; omega

theorem dedupRaw_len (l : List String) : (dedupRaw l).length ≤ l.length := by
  have h := dedupRaw_len_aux l [] []
  rw [List.length_nil, Nat.zero_add] at h
  exact h

/-! Helper lemmas about `takeUntil` for the normalizer (claim C4). -/

theorem takeUntil_append_of_not_mem {sep : Char} :
    ∀ {l1 : List Char}, sep ∉ l1 →
      ∀ l2 : List Char, takeUntil sep (l1 ++ l2) = l1 ++ takeUntil sep l2 := by
  intro l1
  induction l1 with
  | nil => intro _ l2; rfl
  | cons c l1 ih =>
    intro h l2
    have hc : c ≠ sep := fun hx => h (by rw [hx]; exact List.mem_cons_self _ _)
    have hl : sep ∉ l1 := fun hx => h (List.mem_cons_of_mem _ hx)
    show takeUntil sep (c :: (l1 ++ l2)) = c :: (l1 ++ takeUntil sep l2)
    unfold takeUntil
    rw [List.takeWhile_cons, if_pos (by simpa using hc)]
    exact congrArg (c :: ·) (ih hl l2)

theorem takeUntil_cons_self (sep : Char) (l : List Char) :
    takeUntil sep (sep :: l) = [] := by
  unfold takeUntil
  rw [List.takeWhile_cons]
  simp

theorem takeUntil_of_not_mem {sep : Char} {l : List Char} (h : sep ∉ l) :
    takeUntil sep l = l := by
  have h2 := takeUntil_append_of_not_mem h []
  rw [List.append_nil] at h2
  rw [h2, show takeUntil sep ([] : List Char) = [] from rfl, List.append_nil]

theorem string_data_append (s t : String) : (s ++ t).data = s.data ++ t.data :=
  String.data_append s t

theorem string_ne_empty_of_data_ne {s : String} (h : s.data ≠ []) : s ≠ "" := by
  intro hx
  rw [hx] at h
  exact h rfl

/-- normalize_url computed on the character list of a non-empty input. -/
theorem normalize_url_data {url : String} (h : url ≠ "") :
    normalize_url url =
      String.mk (pyStrip ((dropTrailingSlash
        (takeUntil '?' (takeUntil '#' url.data))).map Char.toLower)) := by
  unfold normalize_url
  rw [if_neg h]

/-! Rate limiter: sequential spacing lemma (claim C7). -/

theorem awaitSlotGrant_ge (delay last now : Nat) (h : 0 < delay) :
    last + delay ≤ awaitSlotGrant delay last now := by
  unfold awaitSlotGrant
  split <;> omega

theorem seqGrants_gapsOK (delay : Nat) (h : 0 < delay) :
    ∀ (calls : List Nat) (last : Nat),
      gapsOK delay (seqGrants delay last calls) = true := by
  intro calls
  induction calls with
  | nil => intro last; rfl
  | cons now rest ih =>
    intro last
    cases rest with
    | nil => rfl
    | cons n2 rest2 =>
      show gapsOK delay (awaitSlotGrant delay last now ::
        seqGrants delay (awaitSlotGrant delay last now) (n2 :: rest2)) = true
      have hrec := ih (awaitSlotGrant delay last now)
      have hgap : delay ≤ awaitSlotGrant delay (awaitSlotGrant delay last now) n2
          - awaitSlotGrant delay last now := by
        have := awaitSlotGrant_ge delay (awaitSlotGrant delay last now) n2 h
        omega
      show (decide (delay ≤ _) && _) = true
      rw [Bool.and_eq_true, decide_eq_true_eq]
      exact ⟨hgap, hrec⟩

theorem takeUntil_cons_of_ne {sep c : Char} (h : c ≠ sep) (l : List Char) :
    takeUntil sep (c :: l) = c :: takeUntil sep l := by
  unfold takeUntil
  rw [List.takeWhile_cons, if_pos (by simpa using h)]

theorem takeWhile_append_stop {α : Type} (p : α → Bool) (x : α) (l tail : List α)
    (h : p x = false) :
    (l ++ x :: tail).takeWhile p = l.takeWhile p := by
  induction l with
  | nil => simp [List.takeWhile_cons, h]
  | cons c l ih =>
    rw [List.cons_append, List.takeWhile_cons, List.takeWhile_cons]
    by_cases hc : p c = true
    · rw [if_pos hc, if_pos hc, ih]
    · rw [if_neg hc, if_neg hc]

theorem dropWhile_append_stop {α : Type} (p : α → Bool) (x : α) (l tail : List α)
    (h : p x = false) :
    (l ++ x :: tail).dropWhile p = l.dropWhile p ++ x :: tail := by
  induction l with
  | nil => simp [List.dropWhile_cons, h]
  | cons c l ih =>
    rw [List.cons_append, List.dropWhile_cons, List.dropWhile_cons]
    by_cases hc : p c = true
    · rw [if_pos hc, if_pos hc, ih]
    · rw [if_neg hc, if_neg hc, List.cons_append]

theorem takeWhile_append_all {α : Type} (p : α → Bool) (l l2 : List α)
    (h : ∀ c ∈ l, p c = true) :
    (l ++ l2).takeWhile p = l ++ l2.takeWhile p := by
  induction l with
  | nil => rfl
  | cons c l ih =>
    rw [List.cons_append, List.takeWhile_cons, if_pos (h c (List.mem_cons_self c l)),
        ih (fun d hd => h d (List.mem_cons_of_mem c hd)), List.cons_append]

theorem takeWhile_all_eq {α : Type} (p : α → Bool) (l : List α)
    (h : ∀ c ∈ l, p c = true) : l.takeWhile p = l := by
  have h2 := takeWhile_append_all p l [] h
  simpa using h2

theorem takeWhile_append_stop_mem {α : Type} (p : α → Bool) (l l2 : List α)
    (h : ∃ c ∈ l, p c = false) :
    (l ++ l2).takeWhile p = l.takeWhile p := by
  induction l with
  | nil =>
    rcases h with ⟨c, hc, _⟩
    exact absurd hc (List.not_mem_nil c)
  | cons c l ih =>
    rw [List.cons_append, List.takeWhile_cons, List.takeWhile_cons]
    by_cases hc : p c = true
    · rcases h with ⟨d, hd, hdf⟩
      rcases List.mem_cons.mp hd with hd | hd
      · subst hd
        rw [hc] at hdf
        exact absurd hdf (by simp)
      · rw [if_pos hc, if_pos hc, ih ⟨d, hd, hdf⟩]
    · rw [if_neg hc, if_neg hc]

theorem takeWhile_length_lt {α : Type} (p : α → Bool) (l : List α)
    (h : ∃ c ∈ l, p c = false) :
    (l.takeWhile p).length < l.length := by
  induction l with
  | nil =>
    rcases h with ⟨c, hc, _⟩
    exact absurd hc (List.not_mem_nil c)
  | cons c l ih =>
    rw [List.takeWhile_cons]
    by_cases hc : p c = true
    · rcases h with ⟨d, hd, hdf⟩
      rcases List.mem_cons.mp hd with hd | hd
      · subst hd
        rw [hc] at hdf
        exact absurd hdf (by simp)
      · rw [if_pos hc]
        have := ih ⟨d, hd, hdf⟩
        simp only [List.length_cons]
        omega
    · rw [if_neg hc]
      simp only [List.length_nil, List.length_cons]
      omega

theorem mem_takeWhile_pred {α : Type} (p : α → Bool) (a : α) :
    ∀ l : List α, a ∈ l.takeWhile p → p a = true := by
  intro l
  induction l with
  | nil => intro h; simp [List.takeWhile_nil] at h
  | cons c l ih =>
    intro h
    rw [List.takeWhile_cons] at h
    by_cases hc : p c = true
    · rw [if_pos hc] at h
      rcases List.mem_cons.mp h with h | h
      · subst h
        exact hc
      · exact ih h
    · rw [if_neg hc] at h
      exact absurd h (List.not_mem_nil a)

theorem head?_dropWhile_pred {α : Type} (p : α → Bool) (a : α) :
    ∀ l : List α, (l.dropWhile p).head? = some a → p a = false := by
  intro l
  induction l with
  | nil => intro h; simp [List.dropWhile_nil] at h
  | cons c l ih =>
    intro h
    rw [List.dropWhile_cons] at h
    by_cases hc : p c = true
    · rw [if_pos hc] at h
      exact ih h
    · rw [if_neg hc] at h
      have hca : c = a := by simpa using h
      subst hca
      simpa using hc

theorem dropTrailingSlash_concat (l : List Char) :
    dropTrailingSlash (l ++ ['/']) = l := by
  unfold dropTrailingSlash
  rw [List.getLast?_concat, if_pos rfl, List.dropLast_concat]

theorem splitScheme_append (l tail : List Char) (sep : Char)
    (hsc : isSchemeChar sep = false) (hne : sep ≠ ':') :
    splitScheme (l ++ sep :: tail)
      = ((splitScheme l).1, (splitScheme l).2 ++ sep :: tail) := by
  unfold splitScheme
  dsimp only
  by_cases hcol : ':' ∈ l
  · have hstop : (l ++ sep :: tail).takeWhile (fun c => c ≠ ':')
        = l.takeWhile (fun c => c ≠ ':') :=
      takeWhile_append_stop_mem _ l (sep :: tail) ⟨':', hcol, by simp⟩
    have hlt : (l.takeWhile (fun c => c ≠ ':')).length < l.length :=
      takeWhile_length_lt _ l ⟨':', hcol, by simp⟩
    rw [hstop]
    have hA1 : decide ((l.takeWhile (fun c => c ≠ ':')).length
        < (l ++ sep :: tail).length) = true := by
      rw [decide_eq_true_eq, List.length_append]
      omega
    have hA2 : decide ((l.takeWhile (fun c => c ≠ ':')).length < l.length) = true := by
      rw [decide_eq_true_eq]
      exact hlt
    rw [hA1, hA2]
    simp only [Bool.true_and]
    split
    · dsimp only
      rw [List.drop_append_of_le_length (by omega)]
    · rfl
  · have hall : ∀ c ∈ l, (decide (c ≠ ':')) = true := by
      intro c hc
      rw [decide_eq_true_eq]
      intro he
      exact hcol (he ▸ hc)
    have htwl : l.takeWhile (fun c => c ≠ ':') = l := takeWhile_all_eq _ l hall
    have htwe : (l ++ sep :: tail).takeWhile (fun c => c ≠ ':')
        = l ++ sep :: tail.takeWhile (fun c => c ≠ ':') := by
      rw [takeWhile_append_all _ l _ hall, List.takeWhile_cons,
          if_pos (by rw [decide_eq_true_eq]; exact hne)]
    rw [htwl, htwe]
    rw [if_neg, if_neg] <;>
      first
        | rfl
        | (intro hcond
           rw [Bool.and_eq_true, Bool.and_eq_true] at hcond
           rcases hcond with ⟨⟨ha, hb⟩, hc⟩
           first
             | (rw [decide_eq_true_eq] at ha
                exact absurd ha (lt_irrefl _))
             | (have hmem := List.all_eq_true.mp hc sep
                  (List.mem_append_right l (List.mem_cons_self sep _))
                rw [hsc] at hmem
                exact Bool.false_ne_true hmem))

theorem splitNetloc_append (r2 tail : List Char) (sep : Char)
    (hsep : sep = '#' ∨ sep = '?' ∨ sep = '/') :
    splitNetloc ('/' :: '/' :: (r2 ++ sep :: tail))
      = ((splitNetloc ('/' :: '/' :: r2)).1,
         (splitNetloc ('/' :: '/' :: r2)).2 ++ sep :: tail) := by
  simp only [splitNetloc]
  have hq : ((sep ≠ '/' && sep ≠ '?' && sep ≠ '#') : Bool) = false := by
    rcases hsep with h | h | h <;> subst h <;> decide
  have h1 : (r2 ++ sep :: tail).takeWhile (fun c => c ≠ '/' && c ≠ '?' && c ≠ '#')
      = r2.takeWhile (fun c => c ≠ '/' && c ≠ '?' && c ≠ '#') :=
    takeWhile_append_stop _ sep r2 tail hq
  have h2 : (r2 ++ sep :: tail).dropWhile (fun c => c ≠ '/' && c ≠ '?' && c ≠ '#')
      = r2.dropWhile (fun c => c ≠ '/' && c ≠ '?' && c ≠ '#') ++ sep :: tail :=
    dropWhile_append_stop _ sep r2 tail hq
  rw [h1, h2]

theorem splitScheme_snd_suffix (cs : List Char) : (splitScheme cs).2 <:+ cs := by
  unfold splitScheme
  dsimp only
  split
  · exact List.drop_suffix _ _
  · exact List.suffix_refl _

theorem splitNetloc_shape (r : List Char) :
    ((splitNetloc r).1 = [] ∧ (splitNetloc r).2 = r) ∨
    ∃ r2, r = '/' :: '/' :: r2
      ∧ (splitNetloc r).1 = r2.takeWhile (fun c => c ≠ '/' && c ≠ '?' && c ≠ '#')
      ∧ (splitNetloc r).2 = r2.dropWhile (fun c => c ≠ '/' && c ≠ '?' && c ≠ '#') := by
  unfold splitNetloc
  split
  · next r2 => exact Or.inr ⟨r2, rfl, rfl, rfl⟩
  · exact Or.inl ⟨rfl, rfl⟩

theorem pyUrlparse_decompose (url : String) (p : UrlParts)
    (hp : pyUrlparse url = some p) :
    ∃ s r nl rest2,
      splitScheme url.data = (s, r) ∧
      splitNetloc r = (nl, rest2) ∧
      nl.contains '[' = nl.contains ']' ∧
      p = ⟨String.mk s, String.mk nl,
           String.mk (if usesParams.contains (String.mk s)
                        && (takeUntil '?' (takeUntil '#' rest2)).contains ';'
                      then splitParams (takeUntil '?' (takeUntil '#' rest2))
                      else takeUntil '?' (takeUntil '#' rest2))⟩ := by
  unfold pyUrlparse at hp
  rcases hss : splitScheme url.data with ⟨s, r⟩
  rw [hss] at hp
  dsimp only at hp
  rcases hsn : splitNetloc r with ⟨nl, rest2⟩
  rw [hsn] at hp
  dsimp only at hp
  split at hp
  · exact absurd hp (by simp)
  · next hbr =>
    refine ⟨s, r, nl, rest2, rfl, ?_, not_ne_iff.mp hbr, ?_⟩
    · first | rfl | exact hsn
    · exact (Option.some.inj hp).symm

theorem string_mk_data (l : List Char) : (String.mk l).data = l := rfl

theorem string_eta (s : String) : String.mk s.data = s := rfl

theorem mem_of_head_eq {α : Type} {a : α} {l : List α} (h : l.head? = some a) : a ∈ l := by
  cases l with
  | nil => exact absurd h (by simp)
  | cons c l =>
    have hca : c = a := by simpa using h
    subst hca
    exact List.mem_cons_self _ _

theorem mem_of_getLast_eq {α : Type} {a : α} {l : List α}
    (h : l.getLast? = some a) : a ∈ l := by
  have hr : l.reverse.head? = some a := by rw [List.head?_reverse]; exact h
  exact List.mem_reverse.mp (mem_of_head_eq hr)

theorem getLast_eq_of_suffix {α : Type} {l1 l2 : List α} (h : l1 <:+ l2) (hne : l1 ≠ []) :
    l1.getLast? = l2.getLast? := by
  rcases h with ⟨pre, rfl⟩
  exact (List.getLast?_append_of_ne_nil pre hne).symm

theorem contains_eq_false_of_not_mem {a : Char} :
    ∀ (l : List Char), a ∉ l → l.contains a = false := by
  intro l
  induction l with
  | nil => intro h; rfl
  | cons c l ih =>
    intro h
    have hne : a ≠ c := fun he => h (by rw [he]; exact List.mem_cons_self c l)
    rw [List.contains_cons, ih (fun hm => h (List.mem_cons_of_mem c hm)),
        beq_eq_false_iff_ne.mpr hne]
    rfl

theorem append_pre_mono {α : Type} {l t1 t2 : List α} (h : t1 <+: t2) :
    l ++ t1 <+: l ++ t2 := by
  rcases h with ⟨u, hu⟩
  exact ⟨u, by rw [List.append_assoc, hu]⟩

theorem splitParams_cut (path : List Char) : splitParams path <+: path := by
  unfold splitParams
  have hsplit : (path.reverse.dropWhile (fun c => c ≠ '/')).reverse
      ++ (path.reverse.takeWhile (fun c => c ≠ '/')).reverse = path := by
    rw [← List.reverse_append, List.takeWhile_append_dropWhile, List.reverse_reverse]
  conv_rhs => rw [← hsplit]
  exact append_pre_mono (by
    unfold takeUntil
    exact List.takeWhile_prefix _)

theorem pyStrip_head_not_ws {c : Char} {l : List Char}
    (h : (pyStrip l).head? = some c) : c.isWhitespace = false := by
  unfold pyStrip at h
  rw [List.head?_reverse] at h
  have hne : (l.dropWhile Char.isWhitespace).reverse.dropWhile Char.isWhitespace ≠ [] := by
    intro hx
    rw [hx] at h
    exact absurd h (by simp)
  rw [getLast_eq_of_suffix (List.dropWhile_suffix _) hne, List.getLast?_reverse] at h
  exact head?_dropWhile_pred _ _ _ h

theorem pyStrip_last_not_ws {c : Char} {l : List Char}
    (h : (pyStrip l).getLast? = some c) : c.isWhitespace = false := by
  unfold pyStrip at h
  rw [List.getLast?_reverse] at h
  exact head?_dropWhile_pred _ _ _ h

theorem pyStrip_mem {c : Char} {l : List Char} (h : c ∈ pyStrip l) : c ∈ l := by
  unfold pyStrip at h
  rw [List.mem_reverse] at h
  have h2 := (List.dropWhile_suffix _).subset h
  rw [List.mem_reverse] at h2
  exact (List.dropWhile_suffix _).subset h2

theorem normalize_url_data_all (url : String) :
    normalize_url url =
      String.mk (pyStrip ((dropTrailingSlash
        (takeUntil '?' (takeUntil '#' url.data))).map Char.toLower)) := by
  by_cases h : url = ""
  · subst h
    decide
  · exact normalize_url_data h

theorem normalize_url_lower {url : String} {c : Char}
    (h : c ∈ (normalize_url url).data) : ∃ a ∈ url.data, c = Char.toLower a := by
  rw [normalize_url_data_all url, string_mk_data] at h
  have h1 := pyStrip_mem h
  rcases List.mem_map.mp h1 with ⟨a, ha, hc⟩
  refine ⟨a, ?_, hc.symm⟩
  have h2 : a ∈ takeUntil '?' (takeUntil '#' url.data) := by
    unfold dropTrailingSlash at ha
    split at ha
    · exact (List.dropLast_prefix _).subset ha
    · exact ha
  have h3 : a ∈ takeUntil '#' url.data := by
    unfold takeUntil at h2
    exact (List.takeWhile_prefix _).subset h2
  unfold takeUntil at h3
  exact (List.takeWhile_prefix _).subset h3

theorem normalize_url_ws_head {url : String} {c : Char}
    (h : (normalize_url url).data.head? = some c) : c.isWhitespace = false := by
  rw [normalize_url_data_all url, string_mk_data] at h
  exact pyStrip_head_not_ws h

theorem normalize_url_ws_last {url : String} {c : Char}
    (h : (normalize_url url).data.getLast? = some c) : c.isWhitespace = false := by
  rw [normalize_url_data_all url, string_mk_data] at h
  exact pyStrip_last_not_ws h

theorem pyUrlparse_decompose2 (url : String) (p : UrlParts)
    (hp : pyUrlparse url = some p) (hnl : p.netloc ≠ "") :
    ∃ s r2 nl rest2,
      splitScheme url.data = (s, '/' :: '/' :: r2) ∧
      nl = r2.takeWhile (fun c => c ≠ '/' && c ≠ '?' && c ≠ '#') ∧
      rest2 = r2.dropWhile (fun c => c ≠ '/' && c ≠ '?' && c ≠ '#') ∧
      nl ≠ [] ∧
      nl.contains '[' = nl.contains ']' ∧
      rest2 <:+ url.data ∧
      p = ⟨String.mk s, String.mk nl,
           String.mk (if usesParams.contains (String.mk s)
                        && (takeUntil '?' (takeUntil '#' rest2)).contains ';'
                      then splitParams (takeUntil '?' (takeUntil '#' rest2))
                      else takeUntil '?' (takeUntil '#' rest2))⟩ := by
  obtain ⟨s, r, nl, rest2, hss, hsn, hbr, hpeq⟩ := pyUrlparse_decompose url p hp
  have hnl2 : nl ≠ [] := by
    intro hx
    apply hnl
    subst hx
    rw [hpeq]
  rcases splitNetloc_shape r with ⟨h1, h2⟩ | ⟨r2, hr, h1, h2⟩
  · rw [hsn] at h1
    exact absurd h1 hnl2
  · rw [hsn] at h1 h2
    have h1x : nl = r2.takeWhile (fun c => c ≠ '/' && c ≠ '?' && c ≠ '#') := h1
    have h2x : rest2 = r2.dropWhile (fun c => c ≠ '/' && c ≠ '?' && c ≠ '#') := h2
    refine ⟨s, r2, nl, rest2, ?_, h1x, h2x, hnl2, hbr, ?_, hpeq⟩
    · rw [hss, hr]
    · have hru : r <:+ url.data := by
        have h := splitScheme_snd_suffix url.data
        rw [hss] at h
        exact h
      have hr2 : r2 <:+ url.data := by
        refine List.IsSuffix.trans ?_ hru
        rw [hr]
        exact ⟨['/', '/'], rfl⟩
      rw [h2x]
      exact (List.dropWhile_suffix _).trans hr2

theorem pyUrlparse_append_fragment (url frag : String) (p : UrlParts)
    (hp : pyUrlparse url = some p) (hnl : p.netloc ≠ "") (hh : '#' ∉ url.data) :
    pyUrlparse (url ++ "#" ++ frag) = some p := by
  obtain ⟨s, r2, nl, rest2, hss, hnleq, hrest, hnl2, hbr, hsuf, hpeq⟩ :=
    pyUrlparse_decompose2 url p hp hnl
  have hnr : '#' ∉ rest2 := fun hc => hh (hsuf.subset hc)
  have hdata : (url ++ "#" ++ frag).data = url.data ++ '#' :: frag.data := by
    rw [string_data_append, string_data_append,
        show ("#" : String).data = ['#'] by decide]
    simp
  have hsn0 : splitNetloc ('/' :: '/' :: r2) = (nl, rest2) := by
    simp only [splitNetloc]
    rw [← hnleq, ← hrest]
  have hssx : splitScheme (url.data ++ '#' :: frag.data)
      = (s, '/' :: '/' :: (r2 ++ '#' :: frag.data)) := by
    rw [splitScheme_append url.data frag.data '#' (by decide) (by decide)]
    simp [hss]
  have hsnx : splitNetloc ('/' :: '/' :: (r2 ++ '#' :: frag.data))
      = (nl, rest2 ++ '#' :: frag.data) := by
    rw [splitNetloc_append r2 frag.data '#' (Or.inl rfl), hsn0]
  have ht1 : takeUntil '#' (rest2 ++ '#' :: frag.data) = rest2 := by
    rw [takeUntil_append_of_not_mem hnr, takeUntil_cons_self, List.append_nil]
  have ht2 : takeUntil '#' rest2 = rest2 := takeUntil_of_not_mem hnr
  unfold pyUrlparse
  rw [hdata, hssx]
  dsimp only
  rw [hsnx]
  dsimp only
  rw [if_neg (not_ne_iff.mpr hbr)]
  rw [ht1, hpeq, ht2]

theorem pyUrlparse_append_query (url q : String) (p : UrlParts)
    (hp : pyUrlparse url = some p) (hnl : p.netloc ≠ "")
    (hh : '#' ∉ url.data) (hq : '?' ∉ url.data) :
    pyUrlparse (url ++ "?" ++ q) = some p := by
  obtain ⟨s, r2, nl, rest2, hss, hnleq, hrest, hnl2, hbr, hsuf, hpeq⟩ :=
    pyUrlparse_decompose2 url p hp hnl
  have hnr : '#' ∉ rest2 := fun hc => hh (hsuf.subset hc)
  have hnq : '?' ∉ rest2 := fun hc => hq (hsuf.subset hc)
  have hdata : (url ++ "?" ++ q).data = url.data ++ '?' :: q.data := by
    rw [string_data_append, string_data_append,
        show ("?" : String).data = ['?'] by decide]
    simp
  have hsn0 : splitNetloc ('/' :: '/' :: r2) = (nl, rest2) := by
    simp only [splitNetloc]
    rw [← hnleq, ← hrest]
  have hssx : splitScheme (url.data ++ '?' :: q.data)
      = (s, '/' :: '/' :: (r2 ++ '?' :: q.data)) := by
    rw [splitScheme_append url.data q.data '?' (by decide) (by decide)]
    simp [hss]
  have hsnx : splitNetloc ('/' :: '/' :: (r2 ++ '?' :: q.data))
      = (nl, rest2 ++ '?' :: q.data) := by
    rw [splitNetloc_append r2 q.data '?' (Or.inr (Or.inl rfl)), hsn0]
  have ht1 : takeUntil '#' (rest2 ++ '?' :: q.data)
      = rest2 ++ '?' :: takeUntil '#' q.data := by
    rw [takeUntil_append_of_not_mem hnr, takeUntil_cons_of_ne (by decide)]
  have ht2 : takeUntil '?' (rest2 ++ '?' :: takeUntil '#' q.data) = rest2 := by
    rw [takeUntil_append_of_not_mem hnq, takeUntil_cons_self, List.append_nil]
  unfold pyUrlparse
  rw [hdata, hssx]
  dsimp only
  rw [hsnx]
  dsimp only
  rw [if_neg (not_ne_iff.mpr hbr)]
  rw [ht1, ht2, hpeq]
  rw [takeUntil_of_not_mem hnr, takeUntil_of_not_mem hnq]

theorem pyUrlparse_append_slash (url : String) (p : UrlParts)
    (hp : pyUrlparse url = some p) (hnl : p.netloc ≠ "")
    (hh : '#' ∉ url.data) (hq : '?' ∉ url.data) (hsemi : ';' ∉ url.data) :
    pyUrlparse (url ++ "/") = some ⟨p.scheme, p.netloc, String.mk (p.path.data ++ ['/'])⟩ := by
  obtain ⟨s, r2, nl, rest2, hss, hnleq, hrest, hnl2, hbr, hsuf, hpeq⟩ :=
    pyUrlparse_decompose2 url p hp hnl
  have hnr : '#' ∉ rest2 := fun hc => hh (hsuf.subset hc)
  have hnq : '?' ∉ rest2 := fun hc => hq (hsuf.subset hc)
  have hns : ';' ∉ rest2 := fun hc => hsemi (hsuf.subset hc)
  have hdata : (url ++ "/").data = url.data ++ '/' :: [] := by
    rw [string_data_append, show ("/" : String).data = ['/'] by decide]
  have hsn0 : splitNetloc ('/' :: '/' :: r2) = (nl, rest2) := by
    simp only [splitNetloc]
    rw [← hnleq, ← hrest]
  have hssx : splitScheme (url.data ++ '/' :: [])
      = (s, '/' :: '/' :: (r2 ++ '/' :: [])) := by
    rw [splitScheme_append url.data [] '/' (by decide) (by decide)]
    simp [hss]
  have hsnx : splitNetloc ('/' :: '/' :: (r2 ++ '/' :: []))
      = (nl, rest2 ++ '/' :: []) := by
    rw [splitNetloc_append r2 [] '/' (Or.inr (Or.inr rfl)), hsn0]
  have hmem1 : '#' ∉ rest2 ++ '/' :: [] := by
    intro hx
    rcases List.mem_append.mp hx with hx | hx
    · exact hnr hx
    · simp at hx
  have hmem2 : '?' ∉ rest2 ++ '/' :: [] := by
    intro hx
    rcases List.mem_append.mp hx with hx | hx
    · exact hnq hx
    · simp at hx
  have hmem3 : ';' ∉ rest2 ++ '/' :: [] := by
    intro hx
    rcases List.mem_append.mp hx with hx | hx
    · exact hns hx
    · simp at hx
  unfold pyUrlparse
  rw [hdata, hssx]
  dsimp only
  rw [hsnx]
  dsimp only
  rw [if_neg (not_ne_iff.mpr hbr)]
  rw [takeUntil_of_not_mem hmem1, takeUntil_of_not_mem hmem2,
      contains_eq_false_of_not_mem _ hmem3, Bool.and_false, if_neg Bool.false_ne_true]
  rw [hpeq]
  dsimp only
  rw [takeUntil_of_not_mem hnr, takeUntil_of_not_mem hnq,
      contains_eq_false_of_not_mem _ hns, Bool.and_false, if_neg Bool.false_ne_true]

theorem normalizeUrlCollect_append_fragment (url frag : String) (p : UrlParts)
    (hp : pyUrlparse url = some p) (hnl : p.netloc ≠ "") (hh : '#' ∉ url.data) :
    normalizeUrlCollect (url ++ "#" ++ frag) = normalizeUrlCollect url := by
  unfold normalizeUrlCollect
  rw [hp, pyUrlparse_append_fragment url frag p hp hnl hh]

theorem normalizeUrlCollect_append_query (url q : String) (p : UrlParts)
    (hp : pyUrlparse url = some p) (hnl : p.netloc ≠ "")
    (hh : '#' ∉ url.data) (hq : '?' ∉ url.data) :
    normalizeUrlCollect (url ++ "?" ++ q) = normalizeUrlCollect url := by
  unfold normalizeUrlCollect
  rw [hp, pyUrlparse_append_query url q p hp hnl hh hq]

theorem normalizeUrlCollect_append_slash (url : String) (p : UrlParts)
    (hp : pyUrlparse url = some p) (hnl : p.netloc ≠ "")
    (hh : '#' ∉ url.data) (hq : '?' ∉ url.data) (hsemi : ';' ∉ url.data)
    (hlast : url.data.getLast? ≠ some '/') :
    normalizeUrlCollect (url ++ "/") = normalizeUrlCollect url := by
  obtain ⟨s, r2, nl, rest2, hss, hnleq, hrest, hnl2, hbr, hsuf, hpeq⟩ :=
    pyUrlparse_decompose2 url p hp hnl
  have hnr : '#' ∉ rest2 := fun hc => hh (hsuf.subset hc)
  have hnq : '?' ∉ rest2 := fun hc => hq (hsuf.subset hc)
  have hns : ';' ∉ rest2 := fun hc => hsemi (hsuf.subset hc)
  have hpathu : p.path = String.mk rest2 := by
    rw [hpeq]
    dsimp only
    rw [takeUntil_of_not_mem hnr, takeUntil_of_not_mem hnq,
        contains_eq_false_of_not_mem _ hns, Bool.and_false, if_neg Bool.false_ne_true]
  have hnd : p.netloc.data = nl := by rw [hpeq]
  have hlast2 : (p.scheme ++ "://" ++ p.netloc ++ p.path).data.getLast? ≠ some '/' := by
    intro hcon
    simp only [string_data_append] at hcon
    by_cases hre : rest2 = []
    · subst hre
      have hpd : p.path.data = [] := by rw [hpathu]
      rw [hpd, List.append_nil, hnd, List.getLast?_append_of_ne_nil _ hnl2] at hcon
      have hc := mem_of_getLast_eq hcon
      rw [hnleq] at hc
      have hpred := mem_takeWhile_pred _ _ _ hc
      exact absurd hpred (by decide)
    · have hpd : p.path.data = rest2 := by rw [hpathu]
      rw [hpd, List.getLast?_append_of_ne_nil _ hre,
          getLast_eq_of_suffix hsuf hre] at hcon
      exact hlast hcon
  have hps := pyUrlparse_append_slash url p hp hnl hh hq hsemi
  unfold normalizeUrlCollect
  rw [hp, hps]
  dsimp only
  have hd : (p.scheme ++ "://" ++ p.netloc ++ String.mk (p.path.data ++ ['/'])).data
      = (p.scheme ++ "://" ++ p.netloc ++ p.path).data ++ ['/'] := by
    simp only [string_data_append, string_mk_data, List.append_assoc]
  rw [hd, List.getLast?_concat, if_pos rfl, List.dropLast_concat, if_neg hlast2, string_eta]

theorem pyUrlparse_infix (url : String) (p : UrlParts) (hp : pyUrlparse url = some p) :
    p.netloc.data <:+: url.data ∧ p.path.data <:+: url.data := by
  obtain ⟨s, r, nl, rest2, hss, hsn, hbr, hpeq⟩ := pyUrlparse_decompose url p hp
  have hru : r <:+ url.data := by
    have h := splitScheme_snd_suffix url.data
    rw [hss] at h
    exact h
  have hnd : p.netloc.data = nl := by rw [hpeq]
  have hrs : rest2 <:+ url.data ∧ (nl = [] ∨ nl <:+: url.data) := by
    rcases splitNetloc_shape r with ⟨h1, h2⟩ | ⟨r2, hr, h1, h2⟩
    · rw [hsn] at h1 h2
      have h1x : nl = [] := h1
      have h2x : rest2 = r := h2
      refine ⟨?_, Or.inl h1x⟩
      rw [h2x]
      exact hru
    · rw [hsn] at h1 h2
      have h1x : nl = r2.takeWhile (fun c => c ≠ '/' && c ≠ '?' && c ≠ '#') := h1
      have h2x : rest2 = r2.dropWhile (fun c => c ≠ '/' && c ≠ '?' && c ≠ '#') := h2
      have hr2 : r2 <:+ url.data := by
        refine List.IsSuffix.trans ?_ hru
        rw [hr]
        exact ⟨['/', '/'], rfl⟩
      constructor
      · rw [h2x]
        exact (List.dropWhile_suffix _).trans hr2
      · right
        rw [h1x]
        exact ((List.takeWhile_prefix _).isInfix).trans hr2.isInfix
  constructor
  · rw [hnd]
    rcases hrs.2 with h | h
    · rw [h]
      exact List.nil_infix
    · exact h
  · have hpd : p.path.data = (if usesParams.contains (String.mk s)
        && (takeUntil '?' (takeUntil '#' rest2)).contains ';'
      then splitParams (takeUntil '?' (takeUntil '#' rest2))
      else takeUntil '?' (takeUntil '#' rest2)) := by
      rw [hpeq]
    have hp0 : takeUntil '?' (takeUntil '#' rest2) <+: rest2 := by
      unfold takeUntil
      exact (List.takeWhile_prefix _).trans (List.takeWhile_prefix _)
    rw [hpd]
    split
    · exact ((splitParams_cut _).trans hp0).isInfix.trans hrs.1.isInfix
    · exact hp0.isInfix.trans hrs.1.isInfix

theorem pyUrlparse_scheme_lower (url : String) (p : UrlParts)
    (hp : pyUrlparse url = some p) :
    p.scheme.data = [] ∨
    p.scheme.data = (url.data.takeWhile (fun c => c ≠ ':')).map Char.toLower := by
  obtain ⟨s, r, nl, rest2, hss, hsn, hbr, hpeq⟩ := pyUrlparse_decompose url p hp
  have hsd : p.scheme.data = s := by rw [hpeq]
  unfold splitScheme at hss
  try dsimp only at hss
  split at hss
  · right
    rw [hsd]
    have h1 := congrArg Prod.fst hss
    dsimp only at h1
    exact h1.symm
  · left
    rw [hsd]
    have h1 := congrArg Prod.fst hss
    dsimp only at h1
    exact h1.symm

/-- C8: `_load_fetch_log` folds the rows of fetch_log.csv in file order,
so the mapping it returns maps every URL to exactly the last row of the
file for that URL (and to nothing when the URL has no row). -/
theorem load_fetch_log_last_wins (rows : List LogEntry) (u : String) :
    loadFetchLog rows u = (rows.filter (fun r => r.url == u)).getLast? := by
  have h := loadFetchLog_find u rows (fun _ => none)
  have h2 : rows.reverse.find? (fun r => r.url == u) =
      (rows.filter (fun r => r.url == u)).getLast? := by
    rw [find?_eq_head?_filter, List.filter_reverse, List.head?_reverse]
  unfold loadFetchLog
  rw [h, h2]
  cases (rows.filter (fun r => r.url == u)).getLast? <;> rfl

/-- C3 counterexample: with no allow-listed domains configured, the
orchestrator does not abort — `_is_allowed_domain` accepts every URL,
the dispatch filter of `fetch_all_async` keeps the URL it reads, and the
run issues the network request for it. -/
theorem empty_allowlist_no_abort :
    isAllowedDomain [] "https://unconfigured.example/a" = true
    ∧ urlsToFetch [] [] ["https://unconfigured.example/a"]
        = ["https://unconfigured.example/a"]
    ∧ (fetchAllAsync envTimeout [] ⟨[], []⟩ ["https://unconfigured.example/a"]).2
        = ["https://unconfigured.example/a"] := by decide

/-- C3 amended: when the configuration contains no allow-listed domains,
the orchestrator does not abort: every domain is treated as allowed, the
dispatch filter keeps exactly the URLs not already recorded as success,
and the run proceeds to fetch all of them. -/
theorem empty_allowlist_accepts_all (logRows : List LogEntry) (urls : List String) :
    urlsToFetch [] logRows urls
      = urls.filter (fun u => !(isAlreadyProcessed logRows u))
    ∧ (∀ url, isAllowedDomain [] url = true)
    ∧ (∀ (env : AsyncEnv) (st : FetchState) (rows : List String),
        fetchAllAsync env [] st rows
          = (runFetches env st (rows.filter (fun u => !(isAlreadyProcessed st.log u))),
             runFetchesCalls env st
               (rows.filter (fun u => !(isAlreadyProcessed st.log u))))) := by
  have hfe : ∀ (lr : List LogEntry) (us : List String),
      urlsToFetch [] lr us = us.filter (fun u => !(isAlreadyProcessed lr u)) := by
    intro lr us
    unfold urlsToFetch
    simp
  refine ⟨hfe logRows urls, fun url => rfl, ?_⟩
  intro env st rows
  unfold fetchAllAsync
  rw [hfe st.log rows]

/-- C4 counterexample: the deduplication normalizer lower-cases the
path (`/Path` becomes `/path`), so path casing is not preserved; and the
collection normalizer leaves the host casing untouched, so the host is
not lower-cased. -/
theorem normalize_not_case_preserving :
    normalize_url "https://example.fr/Path" = "https://example.fr/path"
    ∧ "https://example.fr/path" ≠ "https://example.fr/Path"
    ∧ normalizeUrlCollect "https://Example.FR/a" = "https://Example.FR/a" := by decide

/-- C4 amended: both normalizers are deterministic, strip the fragment
and the query component, remove one trailing path separator, and never
raise.  For every URL: the remove_duplicates normalizer lower-cases the
whole string (every output character is the lower-casing of an input
character) and strips surrounding whitespace (neither end of the output
is a whitespace character); the collect_urls normalizer also strips a
fragment, a query and one trailing path separator for every parsable
URL with a host, lower-cases only the scheme (the scheme component is
the lower-cased text before the first colon), preserves host and path
casing (both components are verbatim infixes of the input), and returns
the original string unmodified when the URL cannot be parsed. -/
theorem normalize_url_semantics :
    (∀ pre post : String, '#' ∉ pre.data →
        normalize_url (pre ++ "#" ++ post) = normalize_url pre)
    ∧ (∀ pre post : String, '#' ∉ pre.data → '?' ∉ pre.data →
        normalize_url (pre ++ "?" ++ post) = normalize_url pre)
    ∧ (∀ pre : String, '#' ∉ pre.data → '?' ∉ pre.data →
        pre.data.getLast? ≠ some '/' →
        normalize_url (pre ++ "/") = normalize_url pre)
    ∧ (∀ url : String, pyUrlparse url = none → normalizeUrlCollect url = url)
    ∧ (∀ (url : String) (c : Char), c ∈ (normalize_url url).data →
        ∃ a ∈ url.data, c = Char.toLower a)
    ∧ (∀ (url : String) (c : Char),
        ((normalize_url url).data.head? = some c → c.isWhitespace = false) ∧
        ((normalize_url url).data.getLast? = some c → c.isWhitespace = false))
    ∧ (∀ (url frag : String) (p : UrlParts), pyUrlparse url = some p →
        p.netloc ≠ "" → '#' ∉ url.data →
        normalizeUrlCollect (url ++ "#" ++ frag) = normalizeUrlCollect url)
    ∧ (∀ (url qs : String) (p : UrlParts), pyUrlparse url = some p →
        p.netloc ≠ "" → '#' ∉ url.data → '?' ∉ url.data →
        normalizeUrlCollect (url ++ "?" ++ qs) = normalizeUrlCollect url)
    ∧ (∀ (url : String) (p : UrlParts), pyUrlparse url = some p →
        p.netloc ≠ "" → '#' ∉ url.data → '?' ∉ url.data → ';' ∉ url.data →
        url.data.getLast? ≠ some '/' →
        normalizeUrlCollect (url ++ "/") = normalizeUrlCollect url)
    ∧ (∀ (url : String) (p : UrlParts), pyUrlparse url = some p →
        p.netloc.data <:+: url.data ∧ p.path.data <:+: url.data)
    ∧ (∀ (url : String) (p : UrlParts), pyUrlparse url = some p →
        p.scheme.data = [] ∨
        p.scheme.data = (url.data.takeWhile (fun c => c ≠ ':')).map Char.toLower)
    ∧ normalize_url "https://Example.FR/Path" = "https://example.fr/path"
    ∧ normalizeUrlCollect "HTTPS://Example.FR/Path?q=1#f" = "https://Example.FR/Path" := by
  refine ⟨?_, ?_, ?_, ?_,
    fun url c h => normalize_url_lower h,
    fun url c => ⟨fun h => normalize_url_ws_head h, fun h => normalize_url_ws_last h⟩,
    fun url frag p hp hn hh => normalizeUrlCollect_append_fragment url frag p hp hn hh,
    fun url qs p hp hn hh hq => normalizeUrlCollect_append_query url qs p hp hn hh hq,
    fun url p hp hn hh hq hs hl =>
      normalizeUrlCollect_append_slash url p hp hn hh hq hs hl,
    fun url p hp => pyUrlparse_infix url p hp,
    fun url p hp => pyUrlparse_scheme_lower url p hp,
    by decide, by decide⟩
  · intro pre post h
    have hdata : (pre ++ "#" ++ post).data = pre.data ++ '#' :: post.data := by
      rw [string_data_append, string_data_append,
          show ("#" : String).data = ['#'] by decide]
      simp
    have hne : (pre ++ "#" ++ post) ≠ "" := by
      apply string_ne_empty_of_data_ne
      rw [hdata]
      simp
    rw [normalize_url_data hne, hdata,
        takeUntil_append_of_not_mem h, takeUntil_cons_self, List.append_nil]
    by_cases hp : pre = ""
    · subst hp
      decide
    · rw [normalize_url_data hp, takeUntil_of_not_mem h]
  · intro pre post h hq
    have hdata : (pre ++ "?" ++ post).data = pre.data ++ '?' :: post.data := by
      rw [string_data_append, string_data_append,
          show ("?" : String).data = ['?'] by decide]
      simp
    have hne : (pre ++ "?" ++ post) ≠ "" := by
      apply string_ne_empty_of_data_ne
      rw [hdata]
      simp
    rw [normalize_url_data hne, hdata,
        takeUntil_append_of_not_mem h,
        takeUntil_cons_of_ne (by decide) (post.data),
        takeUntil_append_of_not_mem hq, takeUntil_cons_self, List.append_nil]
    by_cases hp : pre = ""
    · subst hp
      decide
    · rw [normalize_url_data hp, takeUntil_of_not_mem h, takeUntil_of_not_mem hq]
  · intro pre h hq hslash
    have hdata : (pre ++ "/").data = pre.data ++ ['/'] := by
      rw [string_data_append, show ("/" : String).data = ['/'] by decide]
    have hne : (pre ++ "/") ≠ "" := by
      apply string_ne_empty_of_data_ne
      rw [hdata]
      simp
    have hmem1 : '#' ∉ pre.data ++ ['/'] := by
      intro hx
      rcases List.mem_append.mp hx with hx | hx
      · exact h hx
      · simp at hx
    have hmem2 : '?' ∉ pre.data ++ ['/'] := by
      intro hx
      rcases List.mem_append.mp hx with hx | hx
      · exact hq hx
      · simp at hx
    rw [normalize_url_data hne, hdata,
        takeUntil_of_not_mem hmem1, takeUntil_of_not_mem hmem2,
        dropTrailingSlash_concat]
    by_cases hp : pre = ""
    · subst hp
      decide
    · rw [normalize_url_data hp, takeUntil_of_not_mem h, takeUntil_of_not_mem hq,
          show dropTrailingSlash pre.data = pre.data by
            unfold dropTrailingSlash; rw [if_neg hslash]]
  · intro url hp
    unfold normalizeUrlCollect
    rw [hp]

/-- Witness for the C4 amended theorem at concrete URLs: the fragment
stripping of both normalizers, applied with all hypotheses discharged. -/
theorem normalize_url_semantics_witness :
    ('#' ∉ ("https://a.fr/x" : String).data)
    ∧ normalize_url ("https://a.fr/x" ++ "#" ++ "frag") = normalize_url "https://a.fr/x"
    ∧ normalizeUrlCollect ("https://A.fr/x" ++ "#" ++ "f")
        = normalizeUrlCollect "https://A.fr/x" :=
  ⟨by decide, normalize_url_semantics.1 "https://a.fr/x" "frag" (by decide),
   normalize_url_semantics.2.2.2.2.2.2.1 "https://A.fr/x" "f" ⟨"https", "A.fr", "/x"⟩
     (by decide) (by decide) (by decide)⟩

/-- Two workers both inside `_wait_for_domain_rate_limit` for the same
domain: both read the same last-request time before sleeping, so both
are granted at the same instant. -/
def rlInit : RLState :=
  { tasks := [("x.fr", .ready), ("x.fr", .ready)],
    lastRequest := [], clock := 0, grants := [] }

/-- Schedule interleaving the two workers of `rlInit`. -/
def rlSched : List RLAction :=
  [.tick 1, .run 0, .run 1, .tick 4, .run 0, .run 1]

/-- C7 counterexample: with two concurrent workers, `_wait_for_domain_rate_limit`
grants two consecutive slots for the same domain at the same time (gap 0,
below the 0.5 s minimum): the last-request time is read before the
`asyncio.sleep` suspension point and written after it, without mutual
exclusion. -/
theorem rate_limit_concurrent_violation :
    grantTimes (rlRun rlInit rlSched) "x.fr" = [5, 5]
    ∧ gapsOK (domainDelay "x.fr") (grantTimes (rlRun rlInit rlSched) "x.fr") = false := by
  decide

/-- C7 amended: consecutive rate-limiter grants for a domain are
separated by at least the configured minimum interval whenever the slot
requests are serialized (each call starts after the previous one
completed); with concurrently waiting workers the guarantee fails (see
the counterexample). -/
theorem rate_limit_sequential_spacing (delay last : Nat) (calls : List Nat)
    (h : 0 < delay) :
    gapsOK delay (seqGrants delay last calls) = true :=
  seqGrants_gapsOK delay h calls last

/-- Witness for the C7 amended theorem at the default 0.5 s delay. -/
theorem rate_limit_sequential_spacing_witness :
    0 < domainDelay "x.fr"
    ∧ gapsOK (domainDelay "x.fr") (seqGrants (domainDelay "x.fr") 0 [0, 3, 20]) = true :=
  ⟨by decide, rate_limit_sequential_spacing (domainDelay "x.fr") 0 [0, 3, 20] (by decide)⟩

/-- C1 counterexample: a direct fetch answered by HTTP 200, text/html,
with an empty body is recorded as success while the stored document is
empty (zero characters), so a Success ledger entry does not imply a
non-empty stored document. -/
theorem success_with_empty_document :
    ((fetchUrlAsync envEmptyBody ⟨[], []⟩ "https://a.fr/x").2.1.log.map
        (fun e => (e.url, e.status))) = [("https://a.fr/x", "success")]
    ∧ storeLookup (fetchUrlAsync envEmptyBody ⟨[], []⟩ "https://a.fr/x").2.1
        "https://a.fr/x" = some "" := by decide

/-- C1 amended: in every run of the fetcher, a ledger row with status
success implies the content store file for that URL exists (the stored
content may be empty: the direct fetch stores the response body
verbatim, including a zero-byte body). -/
theorem success_entry_has_stored_file (env : AsyncEnv) (st : FetchState)
    (urls : List String)
    (h : ∀ e ∈ st.log, e.status = "success" → isAlreadyFetched st e.url = true) :
    ∀ e ∈ (runFetches env st urls).log, e.status = "success" →
      isAlreadyFetched (runFetches env st urls) e.url = true :=
  runFetches_preserve env
    (fun s => ∀ e ∈ s.log, e.status = "success" → isAlreadyFetched s e.url = true)
    (fun s u hs => storeInv_step env s u hs) urls st h

/-- Witness for the C1 amended theorem: after one run from the empty
state, the success row written for the fetched URL has its file in the
store. -/
theorem success_entry_has_stored_file_witness :
    isAlreadyFetched (runFetches envEmptyBody ⟨[], []⟩ ["https://a.fr/x"])
      "https://a.fr/x" = true :=
  success_entry_has_stored_file envEmptyBody ⟨[], []⟩ ["https://a.fr/x"]
    (by intro e he; simp at he)
    { url := "https://a.fr/x", status := "success", error := "",
      filePath := "https://a.fr/x" } (by decide) (by decide)

theorem processResult_rows_cases (md : List String)
    (acc : List String × List String) (u : String) :
    (processResult md acc u).2 = acc.2 ∨ (processResult md acc u).2 = acc.2 ++ [u] := by
  unfold processResult
  repeat' split
  all_goals first | exact Or.inl rfl | exact Or.inr rfl

theorem dedupRaw_pair (u1 u2 : String) :
    dedupRaw [u1, u2] = [u1] ∨ dedupRaw [u1, u2] = [u1, u2] := by
  by_cases h : u2 = u1
  · left
    subst h
    simp [dedupRaw]
  · right
    simp [dedupRaw, h]

/-- C2 counterexample: with no allow-listed domain configured, the two
URLs of the specification scenario normalize to the same key under both
normalizers, yet feeding both through the pipeline records two
FetchOutcome rows — the collection stage remembers normalized forms
only for configured media URLs (collect_urls.py lines 331-334), and the
empty allow-list disables the dispatch filter. -/
theorem duplicate_pair_two_outcomes :
    normalizeUrlCollect "https://example.fr/a?ref=1#x"
        = normalizeUrlCollect "https://example.fr/a/"
    ∧ normalize_url "https://example.fr/a?ref=1#x"
        = normalize_url "https://example.fr/a/"
    ∧ (fetchAllAsync envTimeout [] ⟨[], []⟩
        (dedupRaw (processResult []
          (processResult [] ([], []) "https://example.fr/a?ref=1#x")
          "https://example.fr/a/").2)).1.log.length = 2 := by decide

/-- C2 amended: provided at least one allow-listed domain is configured,
feeding two raw URLs with the same normalized key through the pipeline
(collection, raw-URL deduplication, allow-list filter, fetch) records at
most one FetchOutcome: a media-domain pair is deduplicated at
collection, and a non-media pair is removed by the allow-list filter
before dispatch; with no configured domain two outcomes are possible
(see the counterexample).  Independently, a run from a fresh state never
writes two success rows for the same URL. -/
theorem allowlisted_duplicate_single_outcome :
    (∀ (md existing : List String) (u1 u2 : String) (env : AsyncEnv),
        md ≠ [] →
        normalizeUrlCollect u1 = normalizeUrlCollect u2 →
        (fetchAllAsync env md ⟨[], []⟩
          (dedupRaw (processResult md
            (processResult md (existing, []) u1) u2).2)).1.log.length ≤ 1)
    ∧ (∀ (env : AsyncEnv) (urls : List String) (u : String),
        successCount (runFetches env ⟨[], []⟩ urls).log u ≤ 1) := by
  constructor
  · intro md existing u1 u2 env hmd hn
    have hempty : md.isEmpty = false := by
      cases md with
      | nil => exact absurd rfl hmd
      | cons a t => rfl
    unfold fetchAllAsync
    dsimp only
    have hbound : ∀ pending : List String, pending.length ≤ 1 →
        (runFetches env ⟨[], []⟩ pending).log.length ≤ 1 := by
      intro pending hp
      have h3 := runFetches_log_len env pending ⟨[], []⟩
      have h0 : (⟨[], []⟩ : FetchState).log.length = 0 := rfl
      omega
    apply hbound
    by_cases hm : isMediaUrl md u1 = true
    · have h1 := processResult_pair_rows md existing u1 u2 hm hn
      have h2 := dedupRaw_len (processResult md (processResult md (existing, []) u1) u2).2
      calc (urlsToFetch md (⟨[], []⟩ : FetchState).log
            (dedupRaw (processResult md (processResult md (existing, []) u1) u2).2)).length
          ≤ (dedupRaw (processResult md (processResult md (existing, []) u1) u2).2).length :=
            List.length_filter_le _ _
        _ ≤ 1 := le_trans h2 h1
    · have hm2 : isMediaUrl md u1 = false := by simpa using hm
      have hallow : isAllowedDomain md u1 = false := by
        unfold isAllowedDomain
        rw [if_neg (by simp [hempty])]
        exact hm2
      have hpred : (!(isAlreadyProcessed (⟨[], []⟩ : FetchState).log u1)
          && (md.isEmpty || isAllowedDomain md u1)) = false := by
        rw [hallow, hempty]
        rfl
      have hfil : ∀ l : List String,
          l = [] ∨ l = [u2] ∨ l = [u1] ∨ l = [u1, u2] →
          (urlsToFetch md (⟨[], []⟩ : FetchState).log l).length ≤ 1 := by
        intro l hl
        rcases hl with hl | hl | hl | hl <;> subst hl
        · simp [urlsToFetch]
        · calc (urlsToFetch md (⟨[], []⟩ : FetchState).log [u2]).length
              ≤ [u2].length := List.length_filter_le _ _
            _ ≤ 1 := by simp
        · unfold urlsToFetch
          rw [List.filter_cons_of_neg (by simpa using hpred)]
          simp
        · unfold urlsToFetch
          rw [List.filter_cons_of_neg (by simpa using hpred)]
          calc (List.filter _ [u2]).length ≤ [u2].length := List.length_filter_le _ _
            _ ≤ 1 := by simp
      have hcases : (processResult md (processResult md (existing, []) u1) u2).2 = []
          ∨ (processResult md (processResult md (existing, []) u1) u2).2 = [u2]
          ∨ (processResult md (processResult md (existing, []) u1) u2).2 = [u1]
          ∨ (processResult md (processResult md (existing, []) u1) u2).2 = [u1, u2] := by
        rcases processResult_rows_cases md (processResult md (existing, []) u1) u2
          with hr2 | hr2 <;>
          rcases processResult_rows_cases md (existing, []) u1 with hr1 | hr1 <;>
          rw [hr2, hr1] <;> simp
      rcases hcases with hc | hc | hc | hc <;> rw [hc]
      · exact hfil [] (Or.inl rfl)
      · exact hfil [u2] (Or.inr (Or.inl rfl))
      · exact hfil [u1] (Or.inr (Or.inr (Or.inl rfl)))
      · rcases dedupRaw_pair u1 u2 with hd | hd <;> rw [hd]
        · exact hfil [u1] (Or.inr (Or.inr (Or.inl rfl)))
        · exact hfil [u1, u2] (Or.inr (Or.inr (Or.inr rfl)))
  · intro env urls u
    have hinit : ∀ v, successCount (⟨[], []⟩ : FetchState).log v ≤ 1 ∧
        (1 ≤ successCount (⟨[], []⟩ : FetchState).log v →
          isAlreadyFetched ⟨[], []⟩ v = true) := by
      intro v
      refine ⟨by simp [successCount], ?_⟩
      intro h1
      rw [show successCount (⟨[], []⟩ : FetchState).log v = 0 from rfl] at h1
      exact absurd h1 (by decide)
    exact ((runFetches_preserve env
      (fun s => ∀ v, successCount s.log v ≤ 1 ∧
        (1 ≤ successCount s.log v → isAlreadyFetched s v = true))
      (fun s u2 hs => ledgerInv_step env s u2 hs) urls ⟨[], []⟩ hinit) u).1

/-- Witness for the C2 amended theorem at the two URLs of the
specification scenario, with example.fr configured as a media domain. -/
theorem allowlisted_duplicate_single_outcome_witness :
    (["example.fr"] : List String) ≠ []
    ∧ normalizeUrlCollect "https://example.fr/a?ref=1#x"
        = normalizeUrlCollect "https://example.fr/a/"
    ∧ (fetchAllAsync envTimeout ["example.fr"] ⟨[], []⟩
        (dedupRaw (processResult ["example.fr"]
          (processResult ["example.fr"] ([], []) "https://example.fr/a?ref=1#x")
          "https://example.fr/a/").2)).1.log.length ≤ 1 :=
  ⟨by decide, by decide,
   allowlisted_duplicate_single_outcome.1 ["example.fr"] []
     "https://example.fr/a?ref=1#x" "https://example.fr/a/" envTimeout
     (by decide) (by decide)⟩

/-- C5: a URL whose loaded ledger row has status success is filtered out
of the dispatch list of `fetch_all_async` and is never the target of a
network access of the run; and a URL whose content-store file exists is
short-circuited by `fetch_url_async` before any request. -/
theorem success_urls_not_refetched (env : AsyncEnv) (md : List String)
    (st : FetchState) (rows : List String) (url : String)
    (h : isAlreadyProcessed st.log url = true) :
    url ∉ urlsToFetch md st.log rows
    ∧ url ∉ (fetchAllAsync env md st rows).2
    ∧ (∀ st2 : FetchState, isAlreadyFetched st2 url = true →
        fetchUrlAsync env st2 url = (true, st2, [])) := by
  have hnot : url ∉ urlsToFetch md st.log rows := by
    intro hmem
    unfold urlsToFetch at hmem
    simp [List.mem_filter, h] at hmem
  refine ⟨hnot, ?_, ?_⟩
  · intro hmem
    unfold fetchAllAsync at hmem
    exact hnot (runFetchesCalls_mem env st _ url hmem)
  · intro st2 h2
    simp [fetchUrlAsync, h2]

/-- Witness for the C5 theorem: a URL with a success row is not
dispatched and not requested again. -/
theorem success_urls_not_refetched_witness :
    isAlreadyProcessed stSuccess.log "https://s.fr/a" = true
    ∧ "https://s.fr/a" ∉ urlsToFetch [] stSuccess.log ["https://s.fr/a"]
    ∧ "https://s.fr/a" ∉ (fetchAllAsync envTimeout [] stSuccess ["https://s.fr/a"]).2 :=
  ⟨by decide,
   (success_urls_not_refetched envTimeout [] stSuccess ["https://s.fr/a"]
     "https://s.fr/a" (by decide)).1,
   (success_urls_not_refetched envTimeout [] stSuccess ["https://s.fr/a"]
     "https://s.fr/a" (by decide)).2.1⟩

/-- C6: when the direct fetch of a URL returns HTTP 403 while the
headless fallback is unavailable (for the synchronous fetcher: the
cookie warm-up retry returns 403 as well), both fetchers report failure,
write nothing to the content store, and append exactly one ledger row
for the URL, whose spec-level FetchOutcome status is Blocked. -/
theorem http403_no_fallback_blocked (pc : String → Option String)
    (net netR : String → HttpResult) (st : FetchState)
    (url ct body ct2 body2 : String)
    (hf : isAlreadyFetched st url = false)
    (h1 : net url = .response 403 ct body)
    (h2 : netR url = .response 403 ct2 body2) :
    ((fetchUrlAsync ⟨false, pc, net⟩ st url).1 = false
      ∧ (fetchUrlAsync ⟨false, pc, net⟩ st url).2.1.store = st.store
      ∧ ∃ e, (fetchUrlAsync ⟨false, pc, net⟩ st url).2.1.log = st.log ++ [e]
          ∧ e.url = url ∧ specStatusOfEntry e = SpecStatus.Blocked)
    ∧ ((fetchUrl ⟨false, pc, net, netR⟩ st url).1 = false
      ∧ (fetchUrl ⟨false, pc, net, netR⟩ st url).2.1.store = st.store
      ∧ ∃ e, (fetchUrl ⟨false, pc, net, netR⟩ st url).2.1.log = st.log ++ [e]
          ∧ e.url = url ∧ specStatusOfEntry e = SpecStatus.Blocked) := by
  have hcd : classifyDirect ⟨false, pc, net⟩ st url =
      (false, saveFetchLog st url "error" (httpBlockMsg 403), [url]) := by
    unfold classifyDirect
    dsimp only
    rw [h1]
    dsimp only
    rw [if_pos (by decide), if_neg (by decide)]
  have hasync : fetchUrlAsync ⟨false, pc, net⟩ st url =
      (false, saveFetchLog st url "error" (httpBlockMsg 403), [url]) := by
    unfold fetchUrlAsync
    rw [if_neg (by simp [hf]), if_neg (by simp)]
    exact hcd
  have hfin : finishResponse ⟨false, pc, net, netR⟩ st url 403 ct2 body2
      [url, baseUrl url, url] =
      (false, saveFetchLog st url "error" (syncHttpErrMsg 403),
        [url, baseUrl url, url]) := by
    unfold finishResponse
    rw [if_pos (by decide)]
  have hsd : syncDirect ⟨false, pc, net, netR⟩ st url =
      (false, saveFetchLog st url "error" (syncHttpErrMsg 403),
        [url, baseUrl url, url]) := by
    unfold syncDirect
    dsimp only
    rw [h1]
    dsimp only
    rw [if_pos (by decide), if_neg (by decide), h2]
    exact hfin
  have hsync : fetchUrl ⟨false, pc, net, netR⟩ st url =
      (false, saveFetchLog st url "error" (syncHttpErrMsg 403),
        [url, baseUrl url, url]) := by
    unfold fetchUrl
    rw [if_neg (by simp [hf]), if_neg (by simp)]
    exact hsd
  constructor
  · rw [hasync]
    refine ⟨rfl, rfl, _, rfl, rfl, ?_⟩
    unfold specStatusOfEntry
    dsimp only
    decide
  · rw [hsync]
    refine ⟨rfl, rfl, _, rfl, rfl, ?_⟩
    unfold specStatusOfEntry
    dsimp only
    decide

/-- Witness for the C6 theorem: a concrete 403 with no headless
fallback yields a Blocked row and an unchanged store. -/
theorem http403_no_fallback_blocked_witness :
    ((fetchUrlAsync ⟨false, fun _ => none, fun _ => .response 403 "text/html" "denied"⟩
        ⟨[], []⟩ "https://b.fr/p").1 = false
      ∧ (fetchUrlAsync ⟨false, fun _ => none, fun _ => .response 403 "text/html" "denied"⟩
          ⟨[], []⟩ "https://b.fr/p").2.1.store = (⟨[], []⟩ : FetchState).store
      ∧ ∃ e, (fetchUrlAsync ⟨false, fun _ => none, fun _ => .response 403 "text/html" "denied"⟩
          ⟨[], []⟩ "https://b.fr/p").2.1.log = (⟨[], []⟩ : FetchState).log ++ [e]
          ∧ e.url = "https://b.fr/p" ∧ specStatusOfEntry e = SpecStatus.Blocked) :=
  (http403_no_fallback_blocked (fun _ => none)
    (fun _ => .response 403 "text/html" "denied")
    (fun _ => .response 403 "text/html" "denied")
    ⟨[], []⟩ "https://b.fr/p" "text/html" "denied" "text/html" "denied"
    (by decide) rfl rfl).1

/-- C9: when the content-store file for a URL already exists, both
fetchers return true immediately with no network access and no ledger
append; and every ledger row either pre-existed or has one of the three
statuses success, error, skipped — an AlreadyFetched row is never
written. -/
theorem already_fetched_short_circuit (envA : AsyncEnv) (envS : SyncEnv)
    (st : FetchState) (url : String) :
    (isAlreadyFetched st url = true →
      fetchUrlAsync envA st url = (true, st, [])
        ∧ fetchUrl envS st url = (true, st, []))
    ∧ (∀ e ∈ (fetchUrlAsync envA st url).2.1.log,
        e ∈ st.log ∨ e.status = "success" ∨ e.status = "error" ∨ e.status = "skipped")
    ∧ (∀ e ∈ (fetchUrl envS st url).2.1.log,
        e ∈ st.log ∨ e.status = "success" ∨ e.status = "error" ∨ e.status = "skipped") := by
  refine ⟨?_, ?_, ?_⟩
  · intro h
    exact ⟨by simp [fetchUrlAsync, h], by simp [fetchUrl, h]⟩
  · intro e he
    rcases fetchUrlAsync_cases envA st url with ⟨_, heq⟩ | ⟨_, _, en, hlog, _, hstat, _⟩
    · rw [heq] at he
      exact Or.inl he
    · rw [hlog] at he
      rcases List.mem_append.mp he with he | he
      · exact Or.inl he
      · have heen : e = en := by simpa using he
        subst heen
        exact Or.inr hstat
  · intro e he
    rcases fetchUrl_cases envS st url with ⟨_, heq⟩ | ⟨_, _, en, hlog, _, hstat, _⟩
    · rw [heq] at he
      exact Or.inl he
    · rw [hlog] at he
      rcases List.mem_append.mp he with he | he
      · exact Or.inl he
      · have heen : e = en := by simpa using he
        subst heen
        exact Or.inr hstat

/-- Witness for the C9 theorem: a URL whose file exists is
short-circuited by both fetchers with no state change and no call. -/
theorem already_fetched_short_circuit_witness :
    isAlreadyFetched stSuccess "https://s.fr/a" = true
    ∧ fetchUrlAsync envTimeout stSuccess "https://s.fr/a" = (true, stSuccess, [])
    ∧ fetchUrl envSyncTimeout stSuccess "https://s.fr/a" = (true, stSuccess, []) :=
  ⟨by decide,
   ((already_fetched_short_circuit envTimeout envSyncTimeout stSuccess
      "https://s.fr/a").1 (by decide)).1,
   ((already_fetched_short_circuit envTimeout envSyncTimeout stSuccess
      "https://s.fr/a").1 (by decide)).2⟩

/-- C10: `_save_fetch_log` appends one row whose error field is the
error detail truncated to its first 200 characters (the empty string
when there is no detail), hence at most 200 characters long; every row
either fetcher appends obeys the 200-character bound. -/
theorem log_error_truncated :
    (∀ (st : FetchState) (u status error : String),
      ∃ e, (saveFetchLog st u status error).log = st.log ++ [e]
        ∧ e.url = u ∧ e.status = status
        ∧ e.error.length ≤ 200 ∧ e.error.data = error.data.take 200)
    ∧ (∀ (env : AsyncEnv) (st : FetchState) (u : String),
        ∀ e ∈ (fetchUrlAsync env st u).2.1.log.drop st.log.length,
          e.error.length ≤ 200)
    ∧ (∀ (env : SyncEnv) (st : FetchState) (u : String),
        ∀ e ∈ (fetchUrl env st u).2.1.log.drop st.log.length,
          e.error.length ≤ 200) := by
  refine ⟨?_, ?_, ?_⟩
  · intro st u status error
    refine ⟨_, rfl, rfl, rfl, saveFetchLog_error_length st u status error, ?_⟩
    show (if (error == "") = true then "" else truncate200 error).data
      = error.data.take 200
    by_cases h : error = ""
    · subst h
      rfl
    · rw [if_neg (by simpa using h)]
      rfl
  · intro env st u e he
    rcases fetchUrlAsync_cases env st u with ⟨_, heq⟩ | ⟨_, _, en, hlog, _, _, herr, _⟩
    · rw [heq] at he
      rw [show (true, st, ([] : List String)).2.1.log = st.log from rfl,
        List.drop_length] at he
      simp at he
    · rw [hlog, List.drop_left] at he
      have heen : e = en := by simpa using he
      subst heen
      exact herr
  · intro env st u e he
    rcases fetchUrl_cases env st u with ⟨_, heq⟩ | ⟨_, _, en, hlog, _, _, herr, _⟩
    · rw [heq] at he
      rw [show (true, st, ([] : List String)).2.1.log = st.log from rfl,
        List.drop_length] at he
      simp at he
    · rw [hlog, List.drop_left] at he
      have heen : e = en := by simpa using he
      subst heen
      exact herr

/-- Witness for the C10 theorem: the error row written for a timeout has
an error field within the 200-character bound. -/
theorem log_error_truncated_witness :
    ({ url := "https://w.fr/a", status := "error", error := "Timeout",
       filePath := "https://w.fr/a" } : LogEntry).error.length ≤ 200 :=
  log_error_truncated.2.1 envTimeout ⟨[], []⟩ "https://w.fr/a"
    { url := "https://w.fr/a", status := "error", error := "Timeout",
      filePath := "https://w.fr/a" } (by decide)

end Odfm
